import Mathlib

/-!
Shallow embedding of the gaufre compiler front end (lexer, recursive-descent
parser and import-resolving driver), translated from `src/lexer.rs`,
`src/parser.rs`, `src/grammar.rs` and `src/main.rs`.  Source strings are
modelled as lists of bytes (`List UInt8`), the lexer and parser state as
explicit structures, and fallible operations return `Except`.
-/

/-- UTF-8 bytes of an ASCII string literal (every keyword and symbol of the
grammar is ASCII, so this is exactly Rust's byte view of those strings). -/
def asciiBytes (s : String) : List UInt8 :=
  s.data.map (fun c => UInt8.ofNat c.toNat)

/-! Constants of `src/grammar.rs`. -/

def KW_IMPORT : String := "import"

def KW_FN : String := "fn"

def KW_MAIN : String := "main"

def KW_LOG : String := "log"

def KW_CALL : String := "call"

def LPAREN : String := "("

def RPAREN : String := ")"

def LBRACE : String := "\x7b"

def RBRACE : String := "\x7d"

def COMMA : String := ","

def EOF : String := "end of file"

/-! Data model of `src/lexer.rs`. -/

/-- `Token` of `src/lexer.rs`: payloads are the raw bytes sliced from the
input. -/
inductive Token where
  | Import
  | Fn
  | Main
  | Log
  | Call
  | Ident (s : List UInt8)
  | Number (s : List UInt8)
  | Str (s : List UInt8)
  | LParen
  | RParen
  | LBrace
  | RBrace
  | Comma
  | Eof
deriving DecidableEq

/-- `Pos` of `src/lexer.rs`: byte offset, 1-based line and column, file name. -/
structure Pos where
  byte : Nat
  line : Nat
  col : Nat
  file : String
deriving DecidableEq

/-- `LexError` of `src/lexer.rs`. -/
structure LexError where
  message : String
  pos : Pos
deriving DecidableEq

/-- `Lexer` of `src/lexer.rs`: the borrowed input together with the cursor. -/
structure Lexer where
  input : List UInt8
  i : Nat
  line : Nat
  col : Nat
  file : String
deriving DecidableEq

/-- `Lexer::with_file`. -/
def Lexer.withFile (file : String) (input : List UInt8) : Lexer :=
  ⟨input, 0, 1, 1, file⟩

/-- `Lexer::new` (file name `<stdin>`). -/
def Lexer.new (input : List UInt8) : Lexer :=
  Lexer.withFile ("<stdin>") input

/-- `Lexer::eof`: `self.i >= self.input.len()`. -/
def Lexer.eofReached (st : Lexer) : Bool :=
  st.input.length ≤ st.i

/-- `Lexer::peek`: the byte at the cursor, without advancing. -/
def Lexer.peek (st : Lexer) : Option UInt8 :=
  st.input[st.i]?

/-- `Lexer::bump`: advance one byte, updating line/column (a newline byte
resets the column to 1 and increments the line). -/
def Lexer.bump (st : Lexer) : Lexer :=
  match st.peek with
  | none => st
  | some b =>
      if b = 10 then { st with i := st.i + 1, line := st.line + 1, col := 1 }
      else { st with i := st.i + 1, col := st.col + 1 }

/-- The whitespace bytes skipped by `Lexer::skip_ws`: space, tab, carriage
return, newline. -/
def isWsByte (b : UInt8) : Bool :=
  b = 32 || b = 9 || b = 13 || b = 10

/-- Loop of `Lexer::skip_ws`.  The fuel is the number of bytes left, which
bounds the iterations (each iteration consumes one byte). -/
def Lexer.skipWsAux : Nat → Lexer → Lexer
  | 0, st => st
  | fuel + 1, st =>
      match st.peek with
      | some b => if isWsByte b then Lexer.skipWsAux fuel st.bump else st
      | none => st

/-- `Lexer::skip_ws`. -/
def Lexer.skipWs (st : Lexer) : Lexer :=
  Lexer.skipWsAux (st.input.length - st.i) st

/-- `Lexer::starts_with`: does the input at the cursor start with `s`? -/
def Lexer.startsWithBytes (st : Lexer) (s : List UInt8) : Bool :=
  s.isPrefixOf (st.input.drop st.i)

/-- `Lexer::try_take`: consume `s` if the input starts with it (advances the
byte index and the column by `s.len()`). -/
def Lexer.tryTake (st : Lexer) (s : List UInt8) : Option Lexer :=
  if st.startsWithBytes s then
    some { st with i := st.i + s.length, col := st.col + s.length }
  else none

/-- `Lexer::try_symbol`: the five single-character symbols, in source order. -/
def Lexer.trySymbol (st : Lexer) : Option (Token × Lexer) :=
  match st.tryTake (asciiBytes LPAREN) with
  | some st' => some (Token.LParen, st')
  | none =>
  match st.tryTake (asciiBytes RPAREN) with
  | some st' => some (Token.RParen, st')
  | none =>
  match st.tryTake (asciiBytes LBRACE) with
  | some st' => some (Token.LBrace, st')
  | none =>
  match st.tryTake (asciiBytes RBRACE) with
  | some st' => some (Token.RBrace, st')
  | none =>
  match st.tryTake (asciiBytes COMMA) with
  | some st' => some (Token.Comma, st')
  | none => none

/-- `Lexer::get_pos`. -/
def Lexer.getPos (st : Lexer) : Pos :=
  ⟨st.i, st.line, st.col, st.file⟩

/-- Message of the unterminated-string lex error, byte for byte as in
`src/lexer.rs`. -/
def incompleteStringMsg : String :=
  "incomplete string (\" missing)"

/-- Loop of `Lexer::read_string`: scan raw bytes until a `"` byte (34); on
success the token payload is the slice `input[s0..i]` and the closing quote is
consumed.  Reaching the end of input yields the incomplete-string error at the
current position.  The fuel is the number of bytes left. -/
def Lexer.readStringAux : Nat → Lexer → Nat → Except LexError Token × Lexer
  | 0, st, _ => (Except.error ⟨incompleteStringMsg, st.getPos⟩, st)
  | fuel + 1, st, s0 =>
      match st.peek with
      | some b =>
          if b = 34 then
            (Except.ok (Token.Str ((st.input.drop s0).take (st.i - s0))), st.bump)
          else Lexer.readStringAux fuel st.bump s0
      | none => (Except.error ⟨incompleteStringMsg, st.getPos⟩, st)

/-- `Lexer::read_string`: consume the opening quote (`self.bump()`), record
`s = self.i`, then scan. -/
def Lexer.readString (st : Lexer) : Except LexError Token × Lexer :=
  Lexer.readStringAux (st.bump.input.length - st.bump.i) st.bump st.bump.i

/-- `Lexer::is_ident_start`: `[A-Za-z_]`. -/
def isIdentStart (b : UInt8) : Bool :=
  (97 ≤ b && b ≤ 122) || (65 ≤ b && b ≤ 90) || b = 95

/-- `Lexer::is_ident_continue`: `is_ident_start` plus digits. -/
def isIdentContinue (b : UInt8) : Bool :=
  isIdentStart b || (48 ≤ b && b ≤ 57)

/-- The digit bytes `[0-9]` of `Lexer::read_number`. -/
def isDigitByte (b : UInt8) : Bool :=
  48 ≤ b && b ≤ 57

/-- Loop of `Lexer::read_ident`. -/
def Lexer.readIdentAux : Nat → Lexer → Lexer
  | 0, st => st
  | fuel + 1, st =>
      match st.peek with
      | some b => if isIdentContinue b then Lexer.readIdentAux fuel st.bump else st
      | none => st

/-- `Lexer::read_ident`: the identifier slice `input[s..i]` and the state after
it. -/
def Lexer.readIdent (st : Lexer) : List UInt8 × Lexer :=
  let st' := Lexer.readIdentAux (st.input.length - st.i) st
  ((st.input.drop st.i).take (st'.i - st.i), st')

/-- Loop of `Lexer::read_number`. -/
def Lexer.readNumberAux : Nat → Lexer → Lexer
  | 0, st => st
  | fuel + 1, st =>
      match st.peek with
      | some b => if isDigitByte b then Lexer.readNumberAux fuel st.bump else st
      | none => st

/-- `Lexer::read_number`: the digit slice `input[s..i]` and the state after
it. -/
def Lexer.readNumber (st : Lexer) : List UInt8 × Lexer :=
  let st' := Lexer.readNumberAux (st.input.length - st.i) st
  ((st.input.drop st.i).take (st'.i - st.i), st')

/-- Keyword table of `Lexer::next_token`: an identifier equal to one of the
five reserved words becomes the keyword token, anything else an `Ident`. -/
def keywordOrIdent (id : List UInt8) : Token :=
  if id = asciiBytes KW_IMPORT then Token.Import
  else if id = asciiBytes KW_CALL then Token.Call
  else if id = asciiBytes KW_FN then Token.Fn
  else if id = asciiBytes KW_MAIN then Token.Main
  else if id = asciiBytes KW_LOG then Token.Log
  else Token.Ident id

/-- Uppercase hexadecimal digit, as produced by Rust's `{:02X}` format. -/
def hexDigitChar (n : Nat) : Char :=
  if n < 10 then Char.ofNat (48 + n) else Char.ofNat (55 + n)

/-- Message of the unexpected-byte lex error, byte for byte as in
`src/lexer.rs` (the source file itself holds the mojibake `caract√®re`),
with the offending byte in two uppercase hex digits. -/
def unexpectedByteMsg (b : UInt8) : String :=
  "caract√®re inattendu: 0x" ++
    String.mk [hexDigitChar (b.toNat / 16), hexDigitChar (b.toNat % 16)]

/-- `Lexer::next_token`: skip whitespace, record the position, then try in
order end of input, a symbol, a string literal, an identifier/keyword, a
number; any other byte is a fatal lex error naming the byte and position. -/
def Lexer.nextToken (st0 : Lexer) : Except LexError (Token × Pos) × Lexer :=
  let st := st0.skipWs
  let pos : Pos := ⟨st.i, st.line, st.col, st.file⟩
  if st.input.length ≤ st.i then (Except.ok (Token.Eof, pos), st)
  else
    match st.trySymbol with
    | some (t, st') => (Except.ok (t, pos), st')
    | none =>
      if st.peek = some 34 then
        match st.readString with
        | (Except.ok t, st') => (Except.ok (t, pos), st')
        | (Except.error e, st') => (Except.error e, st')
      else
        let b := st.input.getD st.i 0
        if isIdentStart b then
          let (id, st') := st.readIdent
          (Except.ok (keywordOrIdent id, pos), st')
        else if isDigitByte b then
          let (n, st') := st.readNumber
          (Except.ok (Token.Number n, pos), st')
        else (Except.error ⟨unexpectedByteMsg b, st.getPos⟩, st)

/-! Cursor lemmas for the lexer: the input is never mutated, the byte index
is monotone, and producing a non-`Eof` token strictly consumes input.  These
back the parser's termination measure. -/

theorem Lexer.peek_some_lt {st : Lexer} {b : UInt8} (h : st.peek = some b) :
    st.i < st.input.length := by
  by_contra hle
  unfold Lexer.peek at h
  rw [List.getElem?_eq_none (by omega)] at h
  exact Option.noConfusion h

theorem Lexer.bump_input (st : Lexer) : st.bump.input = st.input := by
  unfold Lexer.bump
  cases h : st.peek with
  | none => rfl
  | some b => by_cases hb : b = 10 <;> simp [hb]

theorem Lexer.bump_le (st : Lexer) : st.i ≤ st.bump.i := by
  unfold Lexer.bump
  cases h : st.peek with
  | none => exact Nat.le_refl _
  | some b => by_cases hb : b = 10 <;> simp [hb]

theorem Lexer.bump_i_le_succ (st : Lexer) : st.bump.i ≤ st.i + 1 := by
  unfold Lexer.bump
  cases h : st.peek with
  | none => exact Nat.le_succ _
  | some b => by_cases hb : b = 10 <;> simp [hb]

theorem Lexer.bump_i_of_peek {st : Lexer} {b : UInt8} (h : st.peek = some b) :
    st.bump.i = st.i + 1 := by
  unfold Lexer.bump
  rw [h]
  by_cases hb : b = 10 <;> simp [hb]

theorem Lexer.skipWsAux_input : ∀ fuel st, (Lexer.skipWsAux fuel st).input = st.input := by
  intro fuel
  induction fuel with
  | zero => intro st; rfl
  | succ n ih =>
      intro st
      unfold Lexer.skipWsAux
      cases h : st.peek with
      | none => rfl
      | some b =>
          by_cases hb : isWsByte b
          · simp only [hb, if_true]
            rw [ih, Lexer.bump_input]
          · simp [hb]

theorem Lexer.skipWsAux_le : ∀ fuel st, st.i ≤ (Lexer.skipWsAux fuel st).i := by
  intro fuel
  induction fuel with
  | zero => intro st; exact Nat.le_refl _
  | succ n ih =>
      intro st
      unfold Lexer.skipWsAux
      cases h : st.peek with
      | none => exact Nat.le_refl _
      | some b =>
          by_cases hb : isWsByte b
          · simp only [hb, if_true]
            exact Nat.le_trans (Lexer.bump_le st) (ih st.bump)
          · simp [hb]

theorem Lexer.skipWs_input (st : Lexer) : st.skipWs.input = st.input :=
  Lexer.skipWsAux_input _ st

theorem Lexer.skipWs_le (st : Lexer) : st.i ≤ st.skipWs.i :=
  Lexer.skipWsAux_le _ st

theorem Lexer.skipWs_at_end {st : Lexer} (h : st.input.length ≤ st.i) :
    st.skipWs = st := by
  unfold Lexer.skipWs
  rw [Nat.sub_eq_zero_of_le h]
  rfl

theorem Lexer.skipWs_of_not_ws {st : Lexer} {b : UInt8} (hp : st.peek = some b)
    (hb : isWsByte b = false) : st.skipWs = st := by
  unfold Lexer.skipWs
  have hlt : st.i < st.input.length := Lexer.peek_some_lt hp
  obtain ⟨k, hk⟩ : ∃ k, st.input.length - st.i = k + 1 :=
    ⟨st.input.length - st.i - 1, by omega⟩
  rw [hk]
  unfold Lexer.skipWsAux
  rw [hp]
  simp [hb]

theorem Lexer.tryTake_eq_some {st : Lexer} {s : List UInt8} {st' : Lexer}
    (h : st.tryTake s = some st') :
    st'.input = st.input ∧ st'.i = st.i + s.length ∧
      (s ≠ [] → st.i < st.input.length) := by
  unfold Lexer.tryTake at h
  by_cases hs : st.startsWithBytes s
  · simp only [hs, if_true, Option.some.injEq] at h
    subst h
    refine ⟨rfl, rfl, ?_⟩
    intro hne
    unfold Lexer.startsWithBytes at hs
    cases s with
    | nil => exact absurd rfl hne
    | cons a t =>
        by_contra hge
        rw [List.drop_eq_nil_of_le (by omega)] at hs
        simp [List.isPrefixOf] at hs
  · simp [hs] at h

theorem Lexer.trySymbol_eq_some {st : Lexer} {t : Token} {st' : Lexer}
    (h : st.trySymbol = some (t, st')) :
    st'.input = st.input ∧ st'.i = st.i + 1 ∧ st.i < st.input.length ∧
      t ≠ Token.Eof := by
  unfold Lexer.trySymbol at h
  cases h1 : st.tryTake (asciiBytes LPAREN) with
  | some s1 =>
      rw [h1] at h
      obtain ⟨hi, he, hl⟩ := Lexer.tryTake_eq_some h1
      simp only [Option.some.injEq, Prod.mk.injEq] at h
      obtain ⟨ht, hs⟩ := h
      subst ht hs
      exact ⟨hi, he, hl (by decide), by simp⟩
  | none =>
  rw [h1] at h
  cases h2 : st.tryTake (asciiBytes RPAREN) with
  | some s2 =>
      rw [h2] at h
      obtain ⟨hi, he, hl⟩ := Lexer.tryTake_eq_some h2
      simp only [Option.some.injEq, Prod.mk.injEq] at h
      obtain ⟨ht, hs⟩ := h
      subst ht hs
      exact ⟨hi, he, hl (by decide), by simp⟩
  | none =>
  rw [h2] at h
  cases h3 : st.tryTake (asciiBytes LBRACE) with
  | some s3 =>
      rw [h3] at h
      obtain ⟨hi, he, hl⟩ := Lexer.tryTake_eq_some h3
      simp only [Option.some.injEq, Prod.mk.injEq] at h
      obtain ⟨ht, hs⟩ := h
      subst ht hs
      exact ⟨hi, he, hl (by decide), by simp⟩
  | none =>
  rw [h3] at h
  cases h4 : st.tryTake (asciiBytes RBRACE) with
  | some s4 =>
      rw [h4] at h
      obtain ⟨hi, he, hl⟩ := Lexer.tryTake_eq_some h4
      simp only [Option.some.injEq, Prod.mk.injEq] at h
      obtain ⟨ht, hs⟩ := h
      subst ht hs
      exact ⟨hi, he, hl (by decide), by simp⟩
  | none =>
  rw [h4] at h
  cases h5 : st.tryTake (asciiBytes COMMA) with
  | some s5 =>
      rw [h5] at h
      obtain ⟨hi, he, hl⟩ := Lexer.tryTake_eq_some h5
      simp only [Option.some.injEq, Prod.mk.injEq] at h
      obtain ⟨ht, hs⟩ := h
      subst ht hs
      exact ⟨hi, he, hl (by decide), by simp⟩
  | none =>
      rw [h5] at h
      exact Option.noConfusion h

theorem Lexer.peek_none_le {st : Lexer} (h : st.peek = none) :
    st.input.length ≤ st.i := by
  unfold Lexer.peek at h
  by_contra hlt
  rw [List.getElem?_eq_getElem (by omega)] at h
  exact Option.noConfusion h

theorem Lexer.peek_eq_getD {st : Lexer} (h : st.i < st.input.length) :
    st.peek = some (st.input.getD st.i 0) := by
  unfold Lexer.peek
  rw [List.getElem?_eq_getElem h, List.getD_eq_getElem st.input 0 h]

theorem Lexer.bump_i_ub (st : Lexer) : st.bump.i ≤ max st.i st.input.length := by
  cases h : st.peek with
  | none =>
      unfold Lexer.bump
      rw [h]
      exact Nat.le_max_left _ _
  | some b =>
      have := Lexer.peek_some_lt h
      have := Lexer.bump_i_of_peek h
      omega

theorem Lexer.readStringAux_spec : ∀ fuel (st : Lexer) (s0 : Nat),
    ((Lexer.readStringAux fuel st s0).2.input = st.input) ∧
    (st.i ≤ (Lexer.readStringAux fuel st s0).2.i) ∧
    ((Lexer.readStringAux fuel st s0).2.i ≤ max st.i st.input.length) ∧
    (∀ t, (Lexer.readStringAux fuel st s0).1 = Except.ok t →
        st.i < (Lexer.readStringAux fuel st s0).2.i ∧ ∃ s, t = Token.Str s) ∧
    (∀ e, (Lexer.readStringAux fuel st s0).1 = Except.error e →
        e.message = incompleteStringMsg ∧
        e.pos.byte = (Lexer.readStringAux fuel st s0).2.i ∧
        (st.input.length - st.i ≤ fuel →
          st.input.length ≤ (Lexer.readStringAux fuel st s0).2.i)) := by
  intro fuel
  induction fuel with
  | zero =>
      intro st s0
      refine ⟨rfl, Nat.le_refl _, Nat.le_max_left _ _, ?_, ?_⟩
      · intro t ht
        exact Except.noConfusion ht
      · intro e he
        unfold Lexer.readStringAux at he ⊢
        cases he
        refine ⟨rfl, rfl, ?_⟩
        intro h
        show st.input.length ≤ st.i
        omega
  | succ n ih =>
      intro st s0
      unfold Lexer.readStringAux
      cases hp : st.peek with
      | none =>
          have hle := Lexer.peek_none_le hp
          refine ⟨rfl, Nat.le_refl _, Nat.le_max_left _ _, ?_, ?_⟩
          · intro t ht
            exact Except.noConfusion ht
          · intro e he
            cases he
            exact ⟨rfl, rfl, fun _ => hle⟩
      | some b =>
          by_cases hb : b = 34
          · have hlt := Lexer.peek_some_lt hp
            have hbi := Lexer.bump_i_of_peek hp
            simp only [hb, if_true, reduceIte]
            refine ⟨Lexer.bump_input st, by omega, by omega, ?_, ?_⟩
            · intro t ht
              refine ⟨by omega, ?_⟩
              cases ht
              exact ⟨_, rfl⟩
            · intro e he
              exact Except.noConfusion he
          · have hlt := Lexer.peek_some_lt hp
            have hbi := Lexer.bump_i_of_peek hp
            have hbin := Lexer.bump_input st
            simp only [hb, if_false, reduceIte]
            obtain ⟨ih1, ih2, ih3, ih4, ih5⟩ := ih st.bump s0
            refine ⟨by rw [ih1, hbin], by omega, ?_, ?_, ?_⟩
            · rw [hbin] at ih3
              omega
            · intro t ht
              obtain ⟨hlt', hs⟩ := ih4 t ht
              exact ⟨by omega, hs⟩
            · intro e he
              obtain ⟨hm, hby, hfin⟩ := ih5 e he
              refine ⟨hm, hby, ?_⟩
              intro hfuel
              rw [hbin] at hfin
              exact hfin (by omega)

theorem Lexer.readString_spec (st : Lexer) :
    (st.readString.2.input = st.input) ∧ (st.i ≤ st.readString.2.i) ∧
    (st.readString.2.i ≤ max st.i st.input.length) ∧
    (∀ t, st.readString.1 = Except.ok t →
        st.i < st.readString.2.i ∧ ∃ s, t = Token.Str s) ∧
    (∀ e, st.readString.1 = Except.error e →
        e.message = incompleteStringMsg ∧ e.pos.byte = st.readString.2.i ∧
        st.input.length ≤ st.readString.2.i) := by
  unfold Lexer.readString
  have hbin := Lexer.bump_input st
  have hble := Lexer.bump_le st
  have hbub := Lexer.bump_i_ub st
  obtain ⟨h1, h2, h3, h4, h5⟩ :=
    Lexer.readStringAux_spec (st.bump.input.length - st.bump.i) st.bump st.bump.i
  set r := Lexer.readStringAux (st.bump.input.length - st.bump.i) st.bump st.bump.i
    with hr
  rw [hbin] at h3
  refine ⟨by rw [h1, hbin], by omega, by omega, ?_, ?_⟩
  · intro t ht
    obtain ⟨hlt, hs⟩ := h4 t ht
    exact ⟨by omega, hs⟩
  · intro e he
    obtain ⟨hm, hby, hfin⟩ := h5 e he
    have hend := hfin (Nat.le_refl _)
    rw [hbin] at hend
    exact ⟨hm, hby, hend⟩

theorem Lexer.readIdentAux_spec : ∀ fuel (st : Lexer),
    ((Lexer.readIdentAux fuel st).input = st.input) ∧
    (st.i ≤ (Lexer.readIdentAux fuel st).i) ∧
    ((Lexer.readIdentAux fuel st).i ≤ max st.i st.input.length) := by
  intro fuel
  induction fuel with
  | zero => intro st; exact ⟨rfl, Nat.le_refl _, Nat.le_max_left _ _⟩
  | succ n ih =>
      intro st
      unfold Lexer.readIdentAux
      cases hp : st.peek with
      | none => exact ⟨rfl, Nat.le_refl _, Nat.le_max_left _ _⟩
      | some b =>
          by_cases hb : isIdentContinue b
          · have hlt := Lexer.peek_some_lt hp
            have hbi := Lexer.bump_i_of_peek hp
            have hbin := Lexer.bump_input st
            simp only [hb, if_true]
            obtain ⟨ih1, ih2, ih3⟩ := ih st.bump
            rw [hbin] at ih1 ih3
            exact ⟨ih1, by omega, by omega⟩
          · simp only [hb, if_false, reduceIte]
            exact ⟨rfl, Nat.le_refl _, Nat.le_max_left _ _⟩

theorem Lexer.readNumberAux_spec : ∀ fuel (st : Lexer),
    ((Lexer.readNumberAux fuel st).input = st.input) ∧
    (st.i ≤ (Lexer.readNumberAux fuel st).i) ∧
    ((Lexer.readNumberAux fuel st).i ≤ max st.i st.input.length) := by
  intro fuel
  induction fuel with
  | zero => intro st; exact ⟨rfl, Nat.le_refl _, Nat.le_max_left _ _⟩
  | succ n ih =>
      intro st
      unfold Lexer.readNumberAux
      cases hp : st.peek with
      | none => exact ⟨rfl, Nat.le_refl _, Nat.le_max_left _ _⟩
      | some b =>
          by_cases hb : isDigitByte b
          · have hlt := Lexer.peek_some_lt hp
            have hbi := Lexer.bump_i_of_peek hp
            have hbin := Lexer.bump_input st
            simp only [hb, if_true]
            obtain ⟨ih1, ih2, ih3⟩ := ih st.bump
            rw [hbin] at ih1 ih3
            exact ⟨ih1, by omega, by omega⟩
          · simp only [hb, if_false, reduceIte]
            exact ⟨rfl, Nat.le_refl _, Nat.le_max_left _ _⟩

theorem Lexer.readIdent_adv {st : Lexer} {b : UInt8} (hp : st.peek = some b)
    (hb : isIdentContinue b = true) :
    st.i < st.readIdent.2.i ∧ st.readIdent.2.input = st.input ∧
      st.readIdent.2.i ≤ st.input.length := by
  unfold Lexer.readIdent
  have hlt := Lexer.peek_some_lt hp
  obtain ⟨k, hk⟩ : ∃ k, st.input.length - st.i = k + 1 :=
    ⟨st.input.length - st.i - 1, by omega⟩
  rw [hk]
  unfold Lexer.readIdentAux
  rw [hp]
  simp only [hb, if_true]
  have hbi := Lexer.bump_i_of_peek hp
  have hbin := Lexer.bump_input st
  obtain ⟨h1, h2, h3⟩ := Lexer.readIdentAux_spec k st.bump
  rw [hbin] at h1 h3
  exact ⟨by omega, h1, by omega⟩

theorem Lexer.readNumber_adv {st : Lexer} {b : UInt8} (hp : st.peek = some b)
    (hb : isDigitByte b = true) :
    st.i < st.readNumber.2.i ∧ st.readNumber.2.input = st.input ∧
      st.readNumber.2.i ≤ st.input.length := by
  unfold Lexer.readNumber
  have hlt := Lexer.peek_some_lt hp
  obtain ⟨k, hk⟩ : ∃ k, st.input.length - st.i = k + 1 :=
    ⟨st.input.length - st.i - 1, by omega⟩
  rw [hk]
  unfold Lexer.readNumberAux
  rw [hp]
  simp only [hb, if_true]
  have hbi := Lexer.bump_i_of_peek hp
  have hbin := Lexer.bump_input st
  obtain ⟨h1, h2, h3⟩ := Lexer.readNumberAux_spec k st.bump
  rw [hbin] at h1 h3
  exact ⟨by omega, h1, by omega⟩

theorem keywordOrIdent_ne_eof (id : List UInt8) : keywordOrIdent id ≠ Token.Eof := by
  unfold keywordOrIdent
  split
  · simp
  · split
    · simp
    · split
      · simp
      · split
        · simp
        · split <;> simp

theorem Lexer.nextToken_spec (st0 : Lexer) :
    st0.nextToken.2.input = st0.input ∧ st0.i ≤ st0.nextToken.2.i ∧
    (∀ t p, st0.nextToken.1 = Except.ok (t, p) → t ≠ Token.Eof →
        st0.i < st0.nextToken.2.i ∧ st0.i < st0.input.length) := by
  have hsin := Lexer.skipWs_input st0
  have hsle := Lexer.skipWs_le st0
  simp only [Lexer.nextToken]
  by_cases he : st0.skipWs.input.length ≤ st0.skipWs.i
  · rw [if_pos he]
    refine ⟨hsin, hsle, ?_⟩
    intro t p ht hne
    simp only [Except.ok.injEq, Prod.mk.injEq] at ht
    exact absurd ht.1.symm hne
  · rw [if_neg he]
    cases h2 : st0.skipWs.trySymbol with
    | some pr =>
        obtain ⟨t0, stS⟩ := pr
        obtain ⟨si, sii, slt, sne⟩ := Lexer.trySymbol_eq_some h2
        rw [hsin] at si slt
        refine ⟨?_, ?_, ?_⟩
        · show stS.input = st0.input
          exact si
        · show st0.i ≤ stS.i
          omega
        · intro t p ht hne
          refine ⟨?_, by omega⟩
          show st0.i < stS.i
          omega
    | none =>
        by_cases h3 : st0.skipWs.peek = some 34
        · rw [if_pos h3]
          have h3lt := Lexer.peek_some_lt h3
          rw [hsin] at h3lt
          obtain ⟨r1, r2, r3, r4, r5⟩ := Lexer.readString_spec st0.skipWs
          cases hrs : st0.skipWs.readString with
          | mk res stR =>
              have e1 : stR.input = st0.input := by
                rw [hrs] at r1
                rw [hsin] at r1
                exact r1
              have e2 : st0.skipWs.i ≤ stR.i := by
                rw [hrs] at r2
                exact r2
              cases res with
              | ok tk =>
                  have e4 : st0.skipWs.i < stR.i := by
                    have h4 := (r4 tk (by rw [hrs])).1
                    rw [hrs] at h4
                    exact h4
                  refine ⟨?_, ?_, ?_⟩
                  · show stR.input = st0.input
                    exact e1
                  · show st0.i ≤ stR.i
                    omega
                  · intro t p ht hne
                    refine ⟨?_, by omega⟩
                    show st0.i < stR.i
                    omega
              | error e =>
                  refine ⟨?_, ?_, ?_⟩
                  · show stR.input = st0.input
                    exact e1
                  · show st0.i ≤ stR.i
                    omega
                  · intro t p ht hne
                    exact Except.noConfusion ht
        · rw [if_neg h3]
          have hlt : st0.skipWs.i < st0.skipWs.input.length := by omega
          have hpk := Lexer.peek_eq_getD hlt
          by_cases h4 : isIdentStart (st0.skipWs.input.getD st0.skipWs.i 0) = true
          · rw [h4, if_pos rfl]
            have h4c : isIdentContinue (st0.skipWs.input.getD st0.skipWs.i 0) = true := by
              unfold isIdentContinue
              rw [h4]
              rfl
            obtain ⟨a1, a2, a3⟩ := Lexer.readIdent_adv hpk h4c
            rw [hsin] at a2 a3
            cases hri : st0.skipWs.readIdent with
            | mk idb stR =>
                have e1 : st0.skipWs.i < stR.i := by
                  rw [hri] at a1
                  exact a1
                have e2 : stR.input = st0.input := by
                  rw [hri] at a2
                  exact a2
                refine ⟨?_, ?_, ?_⟩
                · show stR.input = st0.input
                  exact e2
                · show st0.i ≤ stR.i
                  omega
                · intro t p ht hne
                  refine ⟨?_, ?_⟩
                  · show st0.i < stR.i
                    omega
                  · rw [hsin] at hlt
                    omega
          · rw [Bool.not_eq_true] at h4
            rw [h4, if_neg (by decide)]
            by_cases h5 : isDigitByte (st0.skipWs.input.getD st0.skipWs.i 0) = true
            · rw [h5, if_pos rfl]
              obtain ⟨a1, a2, a3⟩ := Lexer.readNumber_adv hpk h5
              rw [hsin] at a2 a3
              cases hrn : st0.skipWs.readNumber with
              | mk nb stR =>
                  have e1 : st0.skipWs.i < stR.i := by
                    rw [hrn] at a1
                    exact a1
                  have e2 : stR.input = st0.input := by
                    rw [hrn] at a2
                    exact a2
                  refine ⟨?_, ?_, ?_⟩
                  · show stR.input = st0.input
                    exact e2
                  · show st0.i ≤ stR.i
                    omega
                  · intro t p ht hne
                    refine ⟨?_, ?_⟩
                    · show st0.i < stR.i
                      omega
                    · rw [hsin] at hlt
                      omega
            · rw [Bool.not_eq_true] at h5
              rw [h5, if_neg (by decide)]
              refine ⟨?_, ?_, ?_⟩
              · show st0.skipWs.input = st0.input
                exact hsin
              · show st0.i ≤ st0.skipWs.i
                exact hsle
              · intro t p ht hne
                exact Except.noConfusion ht

theorem Lexer.drop_i_eq_cons {st : Lexer} {b : UInt8} (hp : st.peek = some b) :
    st.input.drop st.i = b :: st.input.drop (st.i + 1) := by
  have hlt := Lexer.peek_some_lt hp
  have hb : st.input[st.i] = b := by
    unfold Lexer.peek at hp
    rw [List.getElem?_eq_getElem hlt] at hp
    exact Option.some.inj hp
  rw [List.drop_eq_getElem_cons hlt, hb]

theorem Lexer.tryTake_single_none {st : Lexer} {b c : UInt8} (hp : st.peek = some b)
    (hc : c ≠ b) : st.tryTake [c] = none := by
  unfold Lexer.tryTake Lexer.startsWithBytes
  rw [Lexer.drop_i_eq_cons hp]
  simp [List.isPrefixOf, hc]

theorem Lexer.trySymbol_none_of_peek {st : Lexer} {b : UInt8} (hp : st.peek = some b)
    (h40 : b ≠ 40) (h41 : b ≠ 41) (h123 : b ≠ 123) (h125 : b ≠ 125) (h44 : b ≠ 44) :
    st.trySymbol = none := by
  unfold Lexer.trySymbol
  rw [show asciiBytes LPAREN = [40] from rfl,
    Lexer.tryTake_single_none hp (fun h => absurd h.symm h40)]
  rw [show asciiBytes RPAREN = [41] from rfl,
    Lexer.tryTake_single_none hp (fun h => absurd h.symm h41)]
  rw [show asciiBytes LBRACE = [123] from rfl,
    Lexer.tryTake_single_none hp (fun h => absurd h.symm h123)]
  rw [show asciiBytes RBRACE = [125] from rfl,
    Lexer.tryTake_single_none hp (fun h => absurd h.symm h125)]
  rw [show asciiBytes COMMA = [44] from rfl,
    Lexer.tryTake_single_none hp (fun h => absurd h.symm h44)]

theorem Lexer.nextToken_at_end {st : Lexer} (h : st.input.length ≤ st.i) :
    st.nextToken = (Except.ok (Token.Eof, ⟨st.i, st.line, st.col, st.file⟩), st) := by
  simp only [Lexer.nextToken]
  rw [Lexer.skipWs_at_end h, if_pos h]

theorem Lexer.nextToken_eof_inv {st : Lexer} {p : Pos} {st' : Lexer}
    (h : st.nextToken = (Except.ok (Token.Eof, p), st')) :
    st' = st.skipWs ∧ st.input.length ≤ st'.i ∧
      p = ⟨st'.i, st'.line, st'.col, st'.file⟩ := by
  have hsin := Lexer.skipWs_input st
  simp only [Lexer.nextToken] at h
  by_cases he : st.skipWs.input.length ≤ st.skipWs.i
  · rw [if_pos he] at h
    simp only [Prod.mk.injEq, Except.ok.injEq] at h
    obtain ⟨⟨_, hp⟩, hst⟩ := h
    subst hst
    rw [hsin] at he
    exact ⟨rfl, he, hp.symm⟩
  · rw [if_neg he] at h
    exfalso
    cases h2 : st.skipWs.trySymbol with
    | some pr =>
        obtain ⟨t0, stS⟩ := pr
        obtain ⟨-, -, -, sne⟩ := Lexer.trySymbol_eq_some h2
        rw [h2] at h
        simp only [Prod.mk.injEq, Except.ok.injEq] at h
        exact sne h.1.1
    | none =>
        rw [h2] at h
        by_cases h3 : st.skipWs.peek = some 34
        · rw [if_pos h3] at h
          obtain ⟨-, -, -, r4, -⟩ := Lexer.readString_spec st.skipWs
          cases hrs : st.skipWs.readString with
          | mk res stR =>
              rw [hrs] at h
              cases res with
              | ok tk =>
                  obtain ⟨-, s, hs⟩ := r4 tk (by rw [hrs])
                  simp only [Prod.mk.injEq, Except.ok.injEq] at h
                  rw [hs] at h
                  exact Token.noConfusion h.1.1
              | error e =>
                  simp only [Prod.mk.injEq] at h
                  exact Except.noConfusion h.1
        · rw [if_neg h3] at h
          by_cases h4 : isIdentStart (st.skipWs.input.getD st.skipWs.i 0) = true
          · rw [h4, if_pos rfl] at h
            simp only [Prod.mk.injEq, Except.ok.injEq] at h
            exact keywordOrIdent_ne_eof _ h.1.1
          · rw [Bool.not_eq_true] at h4
            rw [h4, if_neg (by decide)] at h
            by_cases h5 : isDigitByte (st.skipWs.input.getD st.skipWs.i 0) = true
            · rw [h5, if_pos rfl] at h
              simp only [Prod.mk.injEq, Except.ok.injEq] at h
              exact Token.noConfusion h.1.1
            · rw [Bool.not_eq_true] at h5
              rw [h5, if_neg (by decide)] at h
              simp only [Prod.mk.injEq] at h
              exact Except.noConfusion h.1

theorem Lexer.skipWsAux_all : ∀ fuel (st : Lexer),
    st.input.length - st.i ≤ fuel → st.i ≤ st.input.length →
    (∀ b ∈ st.input.drop st.i, isWsByte b = true) →
    (Lexer.skipWsAux fuel st).i = st.input.length := by
  intro fuel
  induction fuel with
  | zero =>
      intro st hfuel hle _
      show st.i = st.input.length
      omega
  | succ n ih =>
      intro st hfuel hle hws
      unfold Lexer.skipWsAux
      cases hp : st.peek with
      | none =>
          have := Lexer.peek_none_le hp
          show st.i = st.input.length
          omega
      | some b =>
          have hlt := Lexer.peek_some_lt hp
          have hdrop := Lexer.drop_i_eq_cons hp
          have hbws : isWsByte b = true := hws b (by rw [hdrop]; exact List.mem_cons_self _ _)
          show (if isWsByte b = true then Lexer.skipWsAux n st.bump else st).i = st.input.length
          rw [hbws, if_pos rfl]
          have hbi := Lexer.bump_i_of_peek hp
          have hbin := Lexer.bump_input st
          have := ih st.bump (by rw [hbin]; omega) (by rw [hbin]; omega) (by
            intro b' hb'
            apply hws
            rw [hbin, hbi] at hb'
            rw [hdrop]
            exact List.mem_cons_of_mem _ hb')
          rw [hbin] at this
          exact this

theorem Lexer.skipWs_all {st : Lexer} (hle : st.i ≤ st.input.length)
    (h : ∀ b ∈ st.input.drop st.i, isWsByte b = true) :
    st.skipWs.i = st.input.length :=
  Lexer.skipWsAux_all _ st (Nat.le_refl _) hle h

theorem Lexer.peek_eq_head (st : Lexer) : st.peek = (st.input.drop st.i).head? := by
  unfold Lexer.peek
  rw [List.head?_drop]

theorem Lexer.readStringAux_no_quote : ∀ fuel (st : Lexer) (s0 : Nat),
    (∀ b ∈ st.input.drop st.i, b ≠ 34) →
    ∃ e, (Lexer.readStringAux fuel st s0).1 = Except.error e := by
  intro fuel
  induction fuel with
  | zero => intro st s0 _; exact ⟨_, rfl⟩
  | succ n ih =>
      intro st s0 hq
      unfold Lexer.readStringAux
      cases hp : st.peek with
      | none => exact ⟨_, rfl⟩
      | some b =>
          have hdrop := Lexer.drop_i_eq_cons hp
          have hb : b ≠ 34 := hq b (by rw [hdrop]; exact List.mem_cons_self _ _)
          show ∃ e, (if b = 34 then _ else Lexer.readStringAux n st.bump s0).1 = Except.error e
          rw [if_neg hb]
          apply ih st.bump s0
          intro b' hb'
          apply hq
          rw [Lexer.bump_input] at hb'
          rw [Lexer.bump_i_of_peek hp] at hb'
          rw [hdrop]
          exact List.mem_cons_of_mem _ hb'

theorem Lexer.readStringAux_finds : ∀ (s : List UInt8) fuel (st : Lexer) (s0 : Nat)
    (rest : List UInt8),
    st.input.drop st.i = s ++ 34 :: rest → (∀ b ∈ s, b ≠ 34) → s.length < fuel →
    ∃ stE, Lexer.readStringAux fuel st s0 =
        (Except.ok (Token.Str ((st.input.drop s0).take (st.i + s.length - s0))), stE) ∧
      stE.i = st.i + s.length + 1 ∧ stE.input = st.input := by
  intro s
  induction s with
  | nil =>
      intro fuel st s0 rest hdrop _ hfuel
      obtain ⟨k, hk⟩ : ∃ k, fuel = k + 1 := ⟨fuel - 1, by omega⟩
      subst hk
      have hp : st.peek = some 34 := by
        rw [Lexer.peek_eq_head, hdrop]
        rfl
      unfold Lexer.readStringAux
      rw [hp]
      show ∃ stE, (if (34 : UInt8) = 34 then _ else _) = _ ∧ _
      rw [if_pos rfl]
      refine ⟨st.bump, rfl, ?_, Lexer.bump_input st⟩
      rw [Lexer.bump_i_of_peek hp]
      simp
  | cons b s' ih =>
      intro fuel st s0 rest hdrop hq hfuel
      obtain ⟨k, hk⟩ : ∃ k, fuel = k + 1 := ⟨fuel - 1, by omega⟩
      subst hk
      have hp : st.peek = some b := by
        rw [Lexer.peek_eq_head, hdrop]
        rfl
      have hb : b ≠ 34 := hq b (List.mem_cons_self _ _)
      unfold Lexer.readStringAux
      rw [hp]
      show ∃ stE, (if b = 34 then _ else Lexer.readStringAux k st.bump s0) = _ ∧ _
      rw [if_neg hb]
      have hbi := Lexer.bump_i_of_peek hp
      have hbin := Lexer.bump_input st
      have hdrop' : st.bump.input.drop st.bump.i = s' ++ 34 :: rest := by
        rw [hbin, hbi]
        have := Lexer.drop_i_eq_cons hp
        rw [hdrop] at this
        exact (List.cons.inj this.symm).2
      obtain ⟨stE, hres, hEi, hEin⟩ :=
        ih k st.bump s0 rest hdrop' (fun x hx => hq x (List.mem_cons_of_mem _ hx))
          (by simpa using Nat.lt_of_succ_lt_succ hfuel)
      refine ⟨stE, ?_, ?_, ?_⟩
      · rw [hres, hbin, hbi]
        have harith : st.i + 1 + s'.length - s0 = st.i + (b :: s').length - s0 := by
          simp [List.length_cons]
          omega
        rw [harith]
      · rw [hEi, hbi]
        simp [List.length_cons]
        omega
      · rw [hEin, hbin]

theorem Lexer.nextToken_quote {st : Lexer} (hp : st.peek = some 34) :
    st.nextToken = (match st.readString with
      | (Except.ok t, st') => (Except.ok (t, ⟨st.i, st.line, st.col, st.file⟩), st')
      | (Except.error e, st') => (Except.error e, st')) := by
  have hlt := Lexer.peek_some_lt hp
  simp only [Lexer.nextToken]
  rw [Lexer.skipWs_of_not_ws hp (by decide)]
  rw [if_neg (by omega)]
  rw [Lexer.trySymbol_none_of_peek hp (by decide) (by decide) (by decide) (by decide)
    (by decide)]
  show (if st.peek = some 34 then _ else _) = _
  rw [if_pos hp]

/-! Data model of `src/parser.rs`. -/

/-- `Expr` of `src/parser.rs` (the `i32` payload is modelled as `Int`). -/
inductive Expr where
  | Str (s : List UInt8)
  | Var (s : List UInt8)
  | IntLit (n : Int)
  | Add (a b : Expr)
deriving DecidableEq

/-- `Stmt` of `src/parser.rs`. -/
inductive Stmt where
  | Log (args : List Expr)
  | Call (name : List UInt8)
deriving DecidableEq

/-- `Program` of `src/parser.rs`. -/
structure Program where
  stmts : List Stmt
deriving DecidableEq

/-- `Function` of `src/parser.rs` (named `FunctionDecl` here because `Function`
is a Lean root namespace). -/
structure FunctionDecl where
  name : List UInt8
  body : List Stmt
deriving DecidableEq

/-- `ParseError` of `src/parser.rs`. -/
inductive ParseError where
  | Lex (e : LexError)
  | Unexpected (found : Token) (expected : String) (pos : Pos)
  | IntOverflow (literal : String) (pos : Pos)
deriving DecidableEq

/-- `Parser` of `src/parser.rs`: the lexer, the current token and its
position (one-token lookahead). -/
structure Parser where
  lx : Lexer
  cur : Token
  curPos : Pos
deriving DecidableEq

/-- `Parser::new`: pull the first token (a lex error becomes
`ParseError::Lex`). -/
def Parser.new (lx : Lexer) : Except ParseError Parser :=
  match lx.nextToken with
  | (Except.ok (cur, curPos), lx') => Except.ok ⟨lx', cur, curPos⟩
  | (Except.error e, _) => Except.error (ParseError.Lex e)

/-- `Parser::bump`: move one token forward. -/
def Parser.bump (p : Parser) : Except ParseError Parser :=
  match p.lx.nextToken with
  | (Except.ok (cur, curPos), lx') => Except.ok ⟨lx', cur, curPos⟩
  | (Except.error e, _) => Except.error (ParseError.Lex e)

/-- `std::mem::discriminant` on `Token`: the constructor tag. -/
def Token.tag : Token → Nat
  | Token.Import => 0
  | Token.Fn => 1
  | Token.Main => 2
  | Token.Log => 3
  | Token.Call => 4
  | Token.Ident _ => 5
  | Token.Number _ => 6
  | Token.Str _ => 7
  | Token.LParen => 8
  | Token.RParen => 9
  | Token.LBrace => 10
  | Token.RBrace => 11
  | Token.Comma => 12
  | Token.Eof => 13

/-- `Parser::expect`: compare the current token's discriminant with the wanted
one (payload ignored); advance on match, otherwise an `Unexpected` error
naming the expected construct. -/
def Parser.expect (p : Parser) (want : Token) (name : String) :
    Except ParseError Parser :=
  if p.cur.tag = want.tag then p.bump
  else Except.error (ParseError.Unexpected p.cur name p.curPos)

/-- `Parser::parse_log`: `log` `(` one string literal `)`, producing
`Log([Str(text)])`. -/
def Parser.parseLog (p : Parser) : Except ParseError (Stmt × Parser) := do
  let p1 ← p.expect Token.Log KW_LOG
  let p2 ← p1.expect Token.LParen LPAREN
  match p2.cur with
  | Token.Str txt => do
      let p3 ← p2.bump
      let p4 ← p3.expect Token.RParen RPAREN
      Except.ok (Stmt.Log [Expr.Str txt], p4)
  | _ =>
      Except.error (ParseError.Unexpected p2.cur ("a string \"...\" after log(")
        p2.curPos)

/-- `Parser::parse_call`: `call` identifier `(` `)`, producing `Call{name}`. -/
def Parser.parseCall (p : Parser) : Except ParseError (Stmt × Parser) := do
  let p1 ← p.expect Token.Call KW_CALL
  match p1.cur with
  | Token.Ident s => do
      let p2 ← p1.bump
      let p3 ← p2.expect Token.LParen LPAREN
      let p4 ← p3.expect Token.RParen RPAREN
      Except.ok (Stmt.Call s, p4)
  | _ =>
      Except.error (ParseError.Unexpected p1.cur ("function name after `call`")
        p1.curPos)

/-- `Parser::parse_stmt`: `call` or `log`; any other leading token is an
`Unexpected` error whose expected construct is `` `log` ``. -/
def Parser.parseStmt (p : Parser) : Except ParseError (Stmt × Parser) :=
  match p.cur with
  | Token.Call => p.parseCall
  | Token.Log => p.parseLog
  | _ => Except.error (ParseError.Unexpected p.cur ("`log`") p.curPos)

/-- Termination measure for the parser's loops: twice the unconsumed input
plus one for a pending non-`Eof` lookahead token. -/
def Parser.mu (p : Parser) : Nat :=
  2 * (p.lx.input.length - p.lx.i) + (if p.cur = Token.Eof then 0 else 1)

theorem exceptBind_ok {ε α β : Type} {x : Except ε α} {f : α → Except ε β}
    {b : β} : (x >>= f) = Except.ok b ↔ ∃ a, x = Except.ok a ∧ f a = Except.ok b := by
  cases x with
  | error e =>
      constructor
      · intro h
        exact Except.noConfusion h
      · rintro ⟨a, ha, -⟩
        exact Except.noConfusion ha
  | ok a =>
      constructor
      · intro h
        exact ⟨a, rfl, h⟩
      · rintro ⟨a', ha, hf⟩
        cases ha
        exact hf

theorem Parser.bump_spec {p q : Parser} (h : p.bump = Except.ok q) :
    q.lx.input = p.lx.input ∧ Parser.mu q ≤ Parser.mu p ∧
      (p.cur ≠ Token.Eof → Parser.mu q < Parser.mu p) := by
  unfold Parser.bump at h
  obtain ⟨n1, n2, n3⟩ := Lexer.nextToken_spec p.lx
  cases hnt : p.lx.nextToken with
  | mk res lx' =>
      have e1 : lx'.input = p.lx.input := by rw [hnt] at n1; exact n1
      have e2 : p.lx.i ≤ lx'.i := by rw [hnt] at n2; exact n2
      rw [hnt] at h
      cases res with
      | error e => exact Except.noConfusion h
      | ok pr =>
          obtain ⟨cur', pos'⟩ := pr
          replace h : Except.ok (⟨lx', cur', pos'⟩ : Parser) = Except.ok q := h
          cases h
          have e3 : cur' ≠ Token.Eof →
              p.lx.i < lx'.i ∧ p.lx.i < p.lx.input.length := by
            intro hne
            have h3 := n3 cur' pos' (by rw [hnt]) hne
            rw [hnt] at h3
            exact h3
          refine ⟨e1, ?_, ?_⟩
          · unfold Parser.mu
            dsimp only
            rw [e1]
            by_cases hc : cur' = Token.Eof
            · rw [if_pos hc]
              by_cases hp : p.cur = Token.Eof
              · rw [if_pos hp]
                omega
              · rw [if_neg hp]
                omega
            · obtain ⟨h3a, h3b⟩ := e3 hc
              rw [if_neg hc]
              by_cases hp : p.cur = Token.Eof
              · rw [if_pos hp]
                omega
              · rw [if_neg hp]
                omega
          · intro hp
            unfold Parser.mu
            dsimp only
            rw [e1, if_neg hp]
            by_cases hc : cur' = Token.Eof
            · rw [if_pos hc]
              omega
            · obtain ⟨h3a, h3b⟩ := e3 hc
              rw [if_neg hc]
              omega

theorem Parser.expect_spec {p : Parser} {want : Token} {name : String}
    {q : Parser} (h : p.expect want name = Except.ok q) :
    q.lx.input = p.lx.input ∧ Parser.mu q ≤ Parser.mu p ∧
      (p.cur ≠ Token.Eof → Parser.mu q < Parser.mu p) ∧
      p.cur.tag = want.tag := by
  unfold Parser.expect at h
  by_cases ht : p.cur.tag = want.tag
  · rw [if_pos ht] at h
    obtain ⟨e1, e2, e3⟩ := Parser.bump_spec h
    exact ⟨e1, e2, e3, ht⟩
  · rw [if_neg ht] at h
    exact Except.noConfusion h

theorem Token.ne_eof_of_tag {t w : Token} (h : t.tag = w.tag)
    (hw : w ≠ Token.Eof) : t ≠ Token.Eof := by
  intro he
  subst he
  cases w <;> first
    | exact hw rfl
    | exact absurd h (by simp [Token.tag])

theorem Parser.parseLog_spec {p : Parser} {s : Stmt} {q : Parser}
    (h : p.parseLog = Except.ok (s, q)) :
    q.lx.input = p.lx.input ∧ Parser.mu q < Parser.mu p := by
  unfold Parser.parseLog at h
  rw [exceptBind_ok] at h
  obtain ⟨p1, h1, h⟩ := h
  obtain ⟨i1, m1, s1, t1⟩ := Parser.expect_spec h1
  have hlt1 := s1 (Token.ne_eof_of_tag t1 (by decide))
  rw [exceptBind_ok] at h
  obtain ⟨p2, h2, h⟩ := h
  obtain ⟨i2, m2, -, -⟩ := Parser.expect_spec h2
  cases hcur : p2.cur with
  | Str txt =>
      rw [hcur] at h
      rw [exceptBind_ok] at h
      obtain ⟨p3, h3, h⟩ := h
      obtain ⟨i3, m3, -⟩ := Parser.bump_spec h3
      rw [exceptBind_ok] at h
      obtain ⟨p4, h4, h⟩ := h
      obtain ⟨i4, m4, -, -⟩ := Parser.expect_spec h4
      replace h : Except.ok ((Stmt.Log [Expr.Str txt], p4) :
          Stmt × Parser) = Except.ok (s, q) := h
      cases h
      refine ⟨by rw [i4, i3, i2, i1], by omega⟩
  | Import => rw [hcur] at h; exact Except.noConfusion h
  | Fn => rw [hcur] at h; exact Except.noConfusion h
  | Main => rw [hcur] at h; exact Except.noConfusion h
  | Log => rw [hcur] at h; exact Except.noConfusion h
  | Call => rw [hcur] at h; exact Except.noConfusion h
  | Ident a => rw [hcur] at h; exact Except.noConfusion h
  | Number a => rw [hcur] at h; exact Except.noConfusion h
  | LParen => rw [hcur] at h; exact Except.noConfusion h
  | RParen => rw [hcur] at h; exact Except.noConfusion h
  | LBrace => rw [hcur] at h; exact Except.noConfusion h
  | RBrace => rw [hcur] at h; exact Except.noConfusion h
  | Comma => rw [hcur] at h; exact Except.noConfusion h
  | Eof => rw [hcur] at h; exact Except.noConfusion h

theorem Parser.parseCall_spec {p : Parser} {s : Stmt} {q : Parser}
    (h : p.parseCall = Except.ok (s, q)) :
    q.lx.input = p.lx.input ∧ Parser.mu q < Parser.mu p := by
  unfold Parser.parseCall at h
  rw [exceptBind_ok] at h
  obtain ⟨p1, h1, h⟩ := h
  obtain ⟨i1, m1, s1, t1⟩ := Parser.expect_spec h1
  have hlt1 := s1 (Token.ne_eof_of_tag t1 (by decide))
  cases hcur : p1.cur with
  | Ident nm =>
      rw [hcur] at h
      rw [exceptBind_ok] at h
      obtain ⟨p2, h2, h⟩ := h
      obtain ⟨i2, m2, -⟩ := Parser.bump_spec h2
      rw [exceptBind_ok] at h
      obtain ⟨p3, h3, h⟩ := h
      obtain ⟨i3, m3, -, -⟩ := Parser.expect_spec h3
      rw [exceptBind_ok] at h
      obtain ⟨p4, h4, h⟩ := h
      obtain ⟨i4, m4, -, -⟩ := Parser.expect_spec h4
      replace h : Except.ok ((Stmt.Call nm, p4) : Stmt × Parser)
          = Except.ok (s, q) := h
      cases h
      refine ⟨by rw [i4, i3, i2, i1], by omega⟩
  | Import => rw [hcur] at h; exact Except.noConfusion h
  | Fn => rw [hcur] at h; exact Except.noConfusion h
  | Main => rw [hcur] at h; exact Except.noConfusion h
  | Log => rw [hcur] at h; exact Except.noConfusion h
  | Call => rw [hcur] at h; exact Except.noConfusion h
  | Number a => rw [hcur] at h; exact Except.noConfusion h
  | Str a => rw [hcur] at h; exact Except.noConfusion h
  | LParen => rw [hcur] at h; exact Except.noConfusion h
  | RParen => rw [hcur] at h; exact Except.noConfusion h
  | LBrace => rw [hcur] at h; exact Except.noConfusion h
  | RBrace => rw [hcur] at h; exact Except.noConfusion h
  | Comma => rw [hcur] at h; exact Except.noConfusion h
  | Eof => rw [hcur] at h; exact Except.noConfusion h

theorem Parser.parseStmt_spec {p : Parser} {s : Stmt} {q : Parser}
    (h : p.parseStmt = Except.ok (s, q)) :
    q.lx.input = p.lx.input ∧ Parser.mu q < Parser.mu p := by
  unfold Parser.parseStmt at h
  cases hcur : p.cur with
  | Call => rw [hcur] at h; exact Parser.parseCall_spec h
  | Log => rw [hcur] at h; exact Parser.parseLog_spec h
  | Import => rw [hcur] at h; exact Except.noConfusion h
  | Fn => rw [hcur] at h; exact Except.noConfusion h
  | Main => rw [hcur] at h; exact Except.noConfusion h
  | Ident a => rw [hcur] at h; exact Except.noConfusion h
  | Number a => rw [hcur] at h; exact Except.noConfusion h
  | Str a => rw [hcur] at h; exact Except.noConfusion h
  | LParen => rw [hcur] at h; exact Except.noConfusion h
  | RParen => rw [hcur] at h; exact Except.noConfusion h
  | LBrace => rw [hcur] at h; exact Except.noConfusion h
  | RBrace => rw [hcur] at h; exact Except.noConfusion h
  | Comma => rw [hcur] at h; exact Except.noConfusion h
  | Eof => rw [hcur] at h; exact Except.noConfusion h

/-- `Parser::parse_imports`: zero or more `import "<path>"`, each path string
pushed in source order; a missing path string after `import` is an error. -/
def Parser.parseImports (p : Parser) :
    Except ParseError (List (List UInt8) × Parser) :=
  match hc : p.cur with
  | Token.Import =>
      match h1 : p.bump with
      | Except.error e => Except.error e
      | Except.ok p1 =>
          match hs : p1.cur with
          | Token.Str s =>
              match h2 : p1.bump with
              | Except.error e => Except.error e
              | Except.ok p2 =>
                  match p2.parseImports with
                  | Except.error e => Except.error e
                  | Except.ok (paths, p3) => Except.ok (s :: paths, p3)
          | _ =>
              Except.error (ParseError.Unexpected p1.cur
                ("a path string after `import`") p1.curPos)
  | _ => Except.ok ([], p)
termination_by Parser.mu p
decreasing_by
  have m1 := (Parser.bump_spec h1).2.2 (by rw [hc]; exact fun h => Token.noConfusion h)
  have m2 := (Parser.bump_spec h2).2.2 (by rw [hs]; exact fun h => Token.noConfusion h)
  omega

/-- The statement loop `while !matches!(self.cur, Token::RBrace) { … }` shared
by `Parser::parse_main_program` and `Parser::parse_fn_body_block`. -/
def Parser.stmtLoop (p : Parser) : Except ParseError (List Stmt × Parser) :=
  if p.cur = Token.RBrace then Except.ok ([], p)
  else
    match h : p.parseStmt with
    | Except.error e => Except.error e
    | Except.ok (s, p1) =>
        match p1.stmtLoop with
        | Except.error e => Except.error e
        | Except.ok (rest, p2) => Except.ok (s :: rest, p2)
termination_by Parser.mu p
decreasing_by exact (Parser.parseStmt_spec h).2

/-- `Parser::parse_sub_programs`: statements until end of file, with any
`import` token a hard error; then `expect(Eof)`. -/
def Parser.parseSubPrograms (p : Parser) :
    Except ParseError (List Stmt × Parser) :=
  if p.cur = Token.Eof then
    match p.expect Token.Eof EOF with
    | Except.error e => Except.error e
    | Except.ok p1 => Except.ok ([], p1)
  else if p.cur = Token.Import then
    Except.error (ParseError.Unexpected p.cur
      ("no `import` in an included file (only in main program)") p.curPos)
  else
    match h : p.parseStmt with
    | Except.error e => Except.error e
    | Except.ok (s, p1) =>
        match p1.parseSubPrograms with
        | Except.error e => Except.error e
        | Except.ok (rest, p2) => Except.ok (s :: rest, p2)
termination_by Parser.mu p
decreasing_by exact (Parser.parseStmt_spec h).2

/-- `Parser::parse_fn_body_block`: `( ) { Stmt* }`. -/
def Parser.parseFnBodyBlock (p : Parser) :
    Except ParseError (List Stmt × Parser) := do
  let p1 ← p.expect Token.LParen LPAREN
  let p2 ← p1.expect Token.RParen RPAREN
  let p3 ← p2.expect Token.LBrace LBRACE
  let (body, p4) ← p3.stmtLoop
  let p5 ← p4.expect Token.RBrace RBRACE
  Except.ok (body, p5)

/-- `Parser::parse_function`: an identifier (with `main` specially rejected)
then a function body block.  Unreachable from both grammar entry points. -/
def Parser.parseFunction (p : Parser) :
    Except ParseError (FunctionDecl × Parser) :=
  match p.cur with
  | Token.Ident s => do
      let p1 ← p.bump
      let (body, p2) ← p1.parseFnBodyBlock
      Except.ok (⟨s, body⟩, p2)
  | Token.Main =>
      Except.error (ParseError.Unexpected p.cur ("function (hors `main`)")
        p.curPos)
  | _ => Except.error (ParseError.Unexpected p.cur ("nom de fonction") p.curPos)

/-- `Parser::parse_main_program` up to and including the closing brace of the
`main` block (everything before the final `expect(Eof)`). -/
def Parser.parseMainUptoBrace (p : Parser) :
    Except ParseError (List (List UInt8) × List Stmt × Parser) := do
  let (imports, p1) ← p.parseImports
  let p2 ← p1.expect Token.Fn KW_FN
  let p3 ← p2.expect Token.Main KW_MAIN
  let p4 ← p3.expect Token.LParen LPAREN
  let p5 ← p4.expect Token.RParen RPAREN
  let p6 ← p5.expect Token.LBrace LBRACE
  let (stmts, p7) ← p6.stmtLoop
  let p8 ← p7.expect Token.RBrace RBRACE
  Except.ok (imports, stmts, p8)

/-- `Parser::parse_main_program`: imports, `fn main ( ) { Stmt* }`, then
mandatory end of file. -/
def Parser.parseMainProgram (p : Parser) :
    Except ParseError (List (List UInt8) × Program × Parser) := do
  let (imports, stmts, p8) ← p.parseMainUptoBrace
  let p9 ← p8.expect Token.Eof EOF
  Except.ok (imports, ⟨stmts⟩, p9)

/-- Lines 27–30 of `src/main.rs`: lex and parse one main file. -/
def parseMainFile (file : String) (input : List UInt8) :
    Except ParseError (List (List UInt8) × Program) := do
  let p ← Parser.new (Lexer.withFile file input)
  let (imports, prog, _) ← p.parseMainProgram
  Except.ok (imports, prog)

/-- Lines 41–43 of `src/main.rs`: lex and parse one imported file. -/
def parseSubFile (file : String) (input : List UInt8) :
    Except ParseError (List Stmt) := do
  let p ← Parser.new (Lexer.withFile file input)
  let (stmts, _) ← p.parseSubPrograms
  Except.ok stmts

/-! Unfolding equations for the parser's loops (the well-founded definitions
do not reduce definitionally). -/

theorem Parser.parseImports_not_import {p : Parser} (h : p.cur ≠ Token.Import) :
    p.parseImports = Except.ok ([], p) := by
  unfold Parser.parseImports
  cases hc : p.cur <;> first | exact absurd hc h | rfl

theorem Parser.parseImports_bump_err {p : Parser} {e : ParseError}
    (hc : p.cur = Token.Import) (hb : p.bump = Except.error e) :
    p.parseImports = Except.error e := by
  unfold Parser.parseImports
  cases hcur : p.cur <;>
    first
    | (rw [hcur] at hc; exact Token.noConfusion hc)
    | rw [hb]

theorem Parser.parseImports_str_bump_err {p p1 : Parser} {s : List UInt8}
    {e : ParseError} (hc : p.cur = Token.Import) (hb : p.bump = Except.ok p1)
    (hs : p1.cur = Token.Str s) (hb2 : p1.bump = Except.error e) :
    p.parseImports = Except.error e := by
  unfold Parser.parseImports
  cases hcur : p.cur <;>
    first
    | (rw [hcur] at hc; exact Token.noConfusion hc)
    | skip
  rw [hb]
  show (match hs2 : p1.cur with
    | Token.Str s => _
    | _ => _) = _
  cases hcur2 : p1.cur <;>
    first
    | (rw [hcur2] at hs; exact Token.noConfusion hs)
    | skip
  rw [hb2]

theorem Parser.parseImports_rec {p p1 p2 : Parser} {s : List UInt8}
    (hc : p.cur = Token.Import) (hb : p.bump = Except.ok p1)
    (hs : p1.cur = Token.Str s) (hb2 : p1.bump = Except.ok p2) :
    p.parseImports = (match p2.parseImports with
      | Except.error e => Except.error e
      | Except.ok (paths, p3) => Except.ok (s :: paths, p3)) := by
  conv_lhs => rw [Parser.parseImports.eq_def]
  cases hcur : p.cur <;>
    first
    | (rw [hcur] at hc; exact Token.noConfusion hc)
    | skip
  rw [hb]
  show (match hs2 : p1.cur with
    | Token.Str s => _
    | _ => _) = _
  cases hcur2 : p1.cur <;>
    first
    | (rw [hcur2] at hs; exact Token.noConfusion hs)
    | skip
  rw [hcur2] at hs
  cases hs
  rw [hb2]

theorem Parser.parseImports_no_str {p p1 : Parser}
    (hc : p.cur = Token.Import) (hb : p.bump = Except.ok p1)
    (hns : ∀ s, p1.cur ≠ Token.Str s) :
    p.parseImports = Except.error (ParseError.Unexpected p1.cur
      ("a path string after `import`") p1.curPos) := by
  unfold Parser.parseImports
  cases hcur : p.cur <;>
    first
    | (rw [hcur] at hc; exact Token.noConfusion hc)
    | skip
  rw [hb]
  show (match hs2 : p1.cur with
    | Token.Str s => _
    | _ => _) = _
  cases hcur2 : p1.cur <;> first
    | exact absurd hcur2 (hns _)
    | rfl

theorem Parser.stmtLoop_rbrace {p : Parser} (h : p.cur = Token.RBrace) :
    p.stmtLoop = Except.ok ([], p) := by
  unfold Parser.stmtLoop
  rw [if_pos h]

theorem Parser.stmtLoop_stmt_err {p : Parser} {e : ParseError}
    (hne : p.cur ≠ Token.RBrace) (h1 : p.parseStmt = Except.error e) :
    p.stmtLoop = Except.error e := by
  unfold Parser.stmtLoop
  rw [if_neg hne, h1]

theorem Parser.stmtLoop_rec {p p1 : Parser} {s : Stmt}
    (hne : p.cur ≠ Token.RBrace) (h1 : p.parseStmt = Except.ok (s, p1)) :
    p.stmtLoop = (match p1.stmtLoop with
      | Except.error e => Except.error e
      | Except.ok (rest, p2) => Except.ok (s :: rest, p2)) := by
  conv_lhs => rw [Parser.stmtLoop.eq_def]
  rw [if_neg hne, h1]

theorem Parser.stmtLoop_step {p p1 p2 : Parser} {s : Stmt} {rest : List Stmt}
    (hne : p.cur ≠ Token.RBrace) (h1 : p.parseStmt = Except.ok (s, p1))
    (h2 : p1.stmtLoop = Except.ok (rest, p2)) :
    p.stmtLoop = Except.ok (s :: rest, p2) := by
  rw [Parser.stmtLoop_rec hne h1, h2]

theorem Parser.parseSubPrograms_eof {p : Parser} (h : p.cur = Token.Eof) :
    p.parseSubPrograms = (match p.expect Token.Eof EOF with
      | Except.error e => Except.error e
      | Except.ok p1 => Except.ok ([], p1)) := by
  unfold Parser.parseSubPrograms
  rw [if_pos h]

theorem Parser.parseSubPrograms_import {p : Parser} (h : p.cur = Token.Import) :
    p.parseSubPrograms = Except.error (ParseError.Unexpected p.cur
      ("no `import` in an included file (only in main program)") p.curPos) := by
  unfold Parser.parseSubPrograms
  rw [if_neg (by rw [h]; exact fun hh => Token.noConfusion hh), if_pos h]

theorem Parser.parseSubPrograms_stmt_err {p : Parser} {e : ParseError}
    (hne : p.cur ≠ Token.Eof) (hni : p.cur ≠ Token.Import)
    (h1 : p.parseStmt = Except.error e) :
    p.parseSubPrograms = Except.error e := by
  unfold Parser.parseSubPrograms
  rw [if_neg hne, if_neg hni, h1]

theorem Parser.parseSubPrograms_rec {p p1 : Parser} {s : Stmt}
    (hne : p.cur ≠ Token.Eof) (hni : p.cur ≠ Token.Import)
    (h1 : p.parseStmt = Except.ok (s, p1)) :
    p.parseSubPrograms = (match p1.parseSubPrograms with
      | Except.error e => Except.error e
      | Except.ok (rest, p2) => Except.ok (s :: rest, p2)) := by
  conv_lhs => rw [Parser.parseSubPrograms.eq_def]
  rw [if_neg hne, if_neg hni, h1]

/-! `ParseError::IntOverflow` is never produced (claim C9 machinery). -/

/-- Is this error the `IntOverflow` variant? -/
def ParseError.isIntOverflow : ParseError → Bool
  | ParseError.IntOverflow _ _ => true
  | _ => false

/-- The result does not carry `ParseError::IntOverflow`. -/
def noIntOverflow {α : Type} : Except ParseError α → Prop
  | Except.error e => e.isIntOverflow = false
  | Except.ok _ => True

theorem noIntOverflow_bind {α β : Type} {x : Except ParseError α}
    {f : α → Except ParseError β} (hx : noIntOverflow x)
    (hf : ∀ a, noIntOverflow (f a)) : noIntOverflow (x >>= f) := by
  cases x with
  | error e => exact hx
  | ok a => exact hf a

theorem Parser.new_no_overflow (lx : Lexer) : noIntOverflow (Parser.new lx) := by
  unfold Parser.new
  cases hnt : lx.nextToken with
  | mk res lx' =>
      cases res with
      | ok pr => obtain ⟨c, pp⟩ := pr; exact trivial
      | error e => exact rfl

theorem Parser.bump_no_overflow (p : Parser) : noIntOverflow p.bump := by
  unfold Parser.bump
  cases hnt : p.lx.nextToken with
  | mk res lx' =>
      cases res with
      | ok pr => obtain ⟨c, pp⟩ := pr; exact trivial
      | error e => exact rfl

theorem Parser.expect_no_overflow (p : Parser) (want : Token) (name : String) :
    noIntOverflow (p.expect want name) := by
  unfold Parser.expect
  by_cases ht : p.cur.tag = want.tag
  · rw [if_pos ht]
    exact Parser.bump_no_overflow p
  · rw [if_neg ht]
    exact rfl

theorem Parser.parseLog_no_overflow (p : Parser) : noIntOverflow p.parseLog := by
  unfold Parser.parseLog
  apply noIntOverflow_bind (Parser.expect_no_overflow p Token.Log KW_LOG)
  intro p1
  apply noIntOverflow_bind (Parser.expect_no_overflow p1 Token.LParen LPAREN)
  intro p2
  cases p2.cur <;> first
    | exact rfl
    | · apply noIntOverflow_bind (Parser.bump_no_overflow p2)
        intro p3
        apply noIntOverflow_bind (Parser.expect_no_overflow p3 Token.RParen RPAREN)
        intro p4
        exact trivial

theorem Parser.parseCall_no_overflow (p : Parser) : noIntOverflow p.parseCall := by
  unfold Parser.parseCall
  apply noIntOverflow_bind (Parser.expect_no_overflow p Token.Call KW_CALL)
  intro p1
  cases p1.cur <;> first
    | exact rfl
    | · apply noIntOverflow_bind (Parser.bump_no_overflow p1)
        intro p2
        apply noIntOverflow_bind (Parser.expect_no_overflow p2 Token.LParen LPAREN)
        intro p3
        apply noIntOverflow_bind (Parser.expect_no_overflow p3 Token.RParen RPAREN)
        intro p4
        exact trivial

theorem Parser.parseStmt_no_overflow (p : Parser) : noIntOverflow p.parseStmt := by
  unfold Parser.parseStmt
  cases p.cur <;> first
    | exact Parser.parseCall_no_overflow _
    | exact Parser.parseLog_no_overflow _
    | exact rfl

theorem Parser.parseImports_no_overflow (p : Parser) :
    noIntOverflow p.parseImports := by
  induction p using Parser.parseImports.induct with
  | case1 x hc e hb =>
      rw [Parser.parseImports_bump_err hc hb]
      have := Parser.bump_no_overflow x
      rw [hb] at this
      exact this
  | case2 x hc p2 hb s hs e hb2 =>
      rw [Parser.parseImports_str_bump_err hc hb hs hb2]
      have := Parser.bump_no_overflow p2
      rw [hb2] at this
      exact this
  | case3 x hc p2 hb s hs p21 hb2 e hrec ih =>
      rw [Parser.parseImports_rec hc hb hs hb2, hrec]
      rw [hrec] at ih
      exact ih
  | case4 x hc p2 hb s hs p21 hb2 paths p3 hrec ih =>
      rw [Parser.parseImports_rec hc hb hs hb2, hrec]
      exact trivial
  | case5 x hc p2 hb hnostr =>
      rw [Parser.parseImports_no_str hc hb (fun s hh => hnostr s hh)]
      exact rfl
  | case6 x hc =>
      rw [Parser.parseImports_not_import (fun hh => hc hh)]
      exact trivial

theorem Parser.stmtLoop_no_overflow (p : Parser) : noIntOverflow p.stmtLoop := by
  induction p using Parser.stmtLoop.induct with
  | case1 x h =>
      rw [Parser.stmtLoop_rbrace h]
      exact trivial
  | case2 x h e hps =>
      rw [Parser.stmtLoop_stmt_err h hps]
      have := Parser.parseStmt_no_overflow x
      rw [hps] at this
      exact this
  | case3 x h s p1 hps e hrec ih =>
      rw [Parser.stmtLoop_rec h hps, hrec]
      rw [hrec] at ih
      exact ih
  | case4 x h s p1 hps rest p2 hrec ih =>
      rw [Parser.stmtLoop_rec h hps, hrec]
      exact trivial

theorem Parser.parseSubPrograms_no_overflow (p : Parser) :
    noIntOverflow p.parseSubPrograms := by
  induction p using Parser.parseSubPrograms.induct with
  | case1 x h e hex =>
      rw [Parser.parseSubPrograms_eof h, hex]
      have := Parser.expect_no_overflow x Token.Eof EOF
      rw [hex] at this
      exact this
  | case2 x h p1 hex =>
      rw [Parser.parseSubPrograms_eof h, hex]
      exact trivial
  | case3 x hne hc =>
      rw [Parser.parseSubPrograms_import hc]
      exact rfl
  | case4 x hne hni e hps =>
      rw [Parser.parseSubPrograms_stmt_err hne hni hps]
      have := Parser.parseStmt_no_overflow x
      rw [hps] at this
      exact this
  | case5 x hne hni s p1 hps e hrec ih =>
      rw [Parser.parseSubPrograms_rec hne hni hps, hrec]
      rw [hrec] at ih
      exact ih
  | case6 x hne hni s p1 hps rest p2 hrec ih =>
      rw [Parser.parseSubPrograms_rec hne hni hps, hrec]
      exact trivial

theorem Parser.parseFnBodyBlock_no_overflow (p : Parser) :
    noIntOverflow p.parseFnBodyBlock := by
  unfold Parser.parseFnBodyBlock
  apply noIntOverflow_bind (Parser.expect_no_overflow p Token.LParen LPAREN)
  intro p1
  apply noIntOverflow_bind (Parser.expect_no_overflow p1 Token.RParen RPAREN)
  intro p2
  apply noIntOverflow_bind (Parser.expect_no_overflow p2 Token.LBrace LBRACE)
  intro p3
  apply noIntOverflow_bind (Parser.stmtLoop_no_overflow p3)
  intro pr
  obtain ⟨body, p4⟩ := pr
  apply noIntOverflow_bind (Parser.expect_no_overflow p4 Token.RBrace RBRACE)
  intro p5
  exact trivial

theorem Parser.parseFunction_no_overflow (p : Parser) :
    noIntOverflow p.parseFunction := by
  unfold Parser.parseFunction
  cases p.cur <;> first
    | exact rfl
    | · apply noIntOverflow_bind (Parser.bump_no_overflow p)
        intro p1
        apply noIntOverflow_bind (Parser.parseFnBodyBlock_no_overflow p1)
        intro pr
        obtain ⟨body, p2⟩ := pr
        exact trivial

theorem Parser.parseMainUptoBrace_no_overflow (p : Parser) :
    noIntOverflow p.parseMainUptoBrace := by
  unfold Parser.parseMainUptoBrace
  apply noIntOverflow_bind (Parser.parseImports_no_overflow p)
  intro pr
  obtain ⟨imports, p1⟩ := pr
  apply noIntOverflow_bind (Parser.expect_no_overflow p1 Token.Fn KW_FN)
  intro p2
  apply noIntOverflow_bind (Parser.expect_no_overflow p2 Token.Main KW_MAIN)
  intro p3
  apply noIntOverflow_bind (Parser.expect_no_overflow p3 Token.LParen LPAREN)
  intro p4
  apply noIntOverflow_bind (Parser.expect_no_overflow p4 Token.RParen RPAREN)
  intro p5
  apply noIntOverflow_bind (Parser.expect_no_overflow p5 Token.LBrace LBRACE)
  intro p6
  apply noIntOverflow_bind (Parser.stmtLoop_no_overflow p6)
  intro pr2
  obtain ⟨stmts, p7⟩ := pr2
  apply noIntOverflow_bind (Parser.expect_no_overflow p7 Token.RBrace RBRACE)
  intro p8
  exact trivial

theorem Parser.parseMainProgram_no_overflow (p : Parser) :
    noIntOverflow p.parseMainProgram := by
  unfold Parser.parseMainProgram
  apply noIntOverflow_bind (Parser.parseMainUptoBrace_no_overflow p)
  intro pr
  obtain ⟨imports, stmts, p8⟩ := pr
  apply noIntOverflow_bind (Parser.expect_no_overflow p8 Token.Eof EOF)
  intro p9
  exact trivial

theorem parseMainFile_no_overflow (file : String) (input : List UInt8) :
    noIntOverflow (parseMainFile file input) := by
  unfold parseMainFile
  apply noIntOverflow_bind (Parser.new_no_overflow (Lexer.withFile file input))
  intro p
  apply noIntOverflow_bind (Parser.parseMainProgram_no_overflow p)
  intro pr
  obtain ⟨imports, prog, p9⟩ := pr
  exact trivial

theorem parseSubFile_no_overflow (file : String) (input : List UInt8) :
    noIntOverflow (parseSubFile file input) := by
  unfold parseSubFile
  apply noIntOverflow_bind (Parser.new_no_overflow (Lexer.withFile file input))
  intro p
  apply noIntOverflow_bind (Parser.parseSubPrograms_no_overflow p)
  intro pr
  obtain ⟨stmts, p1⟩ := pr
  exact trivial

/-! Import resolution and the driver loop of `src/main.rs`.  Rust `PathBuf`
values are compared (and hashed, hence deduplicated in the `HashSet`) by
their parsed components, so the model keeps each path as its character string
together with a component view implementing the Unix rules of
`std::path::Components`. -/

/-- A parsed path component (`std::path::Component`; Unix, so no prefix). -/
inductive PathComp where
  | rootDir
  | curDir
  | parentDir
  | normal (s : List Char)
deriving DecidableEq

/-- Split a path string at every `/`. -/
def splitSlash : List Char → List (List Char)
  | [] => [[]]
  | c :: rest =>
      match splitSlash rest with
      | [] => [[]]
      | g :: gs => if c = '/' then [] :: g :: gs else (c :: g) :: gs

/-- Rust `Components::include_cur_dir`: a `.` component is kept only when the
path has no root and begins with `.` alone or `./`. -/
def includeCurDir : List Char → Bool
  | '.' :: [] => true
  | '.' :: c :: _ => c = '/'
  | _ => false

/-- Rust `Path::components` under Unix rules: a leading `/` is `RootDir`;
empty components (from repeated or trailing separators) and non-leading `.`
components are normalized away; `..` is kept as `ParentDir`.  (The Rust
documentation: *"no other normalization takes place; `a/c` and `a/b/../c` are
distinct"*.) -/
def pathComponents (p : List Char) : List PathComp :=
  let pre : List PathComp :=
    match p with
    | '/' :: _ => [PathComp.rootDir]
    | _ => if includeCurDir p then [PathComp.curDir] else []
  pre ++ ((splitSlash p).filter
      (fun s => decide (s ≠ [] ∧ s ≠ ['.']))).map
    (fun s => if s = ['.', '.'] then PathComp.parentDir else PathComp.normal s)

/-- Text of one component, for re-rendering a popped path. -/
def compText : PathComp → List Char
  | PathComp.rootDir => ['/']
  | PathComp.curDir => ['.']
  | PathComp.parentDir => ['.', '.']
  | PathComp.normal s => s

/-- Join component texts with `/`. -/
def sepJoin : List (List Char) → List Char
  | [] => []
  | [x] => x
  | x :: xs => x ++ '/' :: sepJoin xs

/-- Render a component list back to a path string (components-equivalent to
Rust's `Components::as_path`). -/
def renderComps (l : List PathComp) : List Char :=
  match l with
  | PathComp.rootDir :: rest => '/' :: sepJoin (rest.map compText)
  | _ => sepJoin (l.map compText)

/-- `base_file.parent().unwrap_or_else(|| Path::new("."))` of `resolve_rel`:
`Path::parent` pops the last component and returns `None` when the path is
empty or a bare root. -/
def parentOrDot (p : List Char) : List Char :=
  let comps := pathComponents p
  match comps.getLast? with
  | some (PathComp.normal _) => renderComps comps.dropLast
  | some PathComp.curDir => renderComps comps.dropLast
  | some PathComp.parentDir => renderComps comps.dropLast
  | _ => ['.']

/-- Does the path have a root (Unix `is_absolute`)? -/
def isAbsolute : List Char → Bool
  | '/' :: _ => true
  | _ => false

/-- `PathBuf::push` as used by `Path::join`: an absolute `rel` replaces the
base; otherwise a separator is appended unless the base is empty or already
ends in one, then `rel`. -/
def pushPath (base rel : List Char) : List Char :=
  if isAbsolute rel then rel
  else if base = [] then base ++ rel
  else if base.getLast? = some '/' then base ++ rel
  else base ++ '/' :: rel

/-- `resolve_rel` of `src/main.rs`: join `rel` onto the root file's parent
directory. -/
def resolveRel (baseFile rel : List Char) : List Char :=
  pushPath (parentOrDot baseFile) rel

/-- The import-loading loop of `main` (lines 33–45 of `src/main.rs`).  `fs`
stands for `fs::read_to_string` composed with lexing and parsing of the
imported file — the driver aborts on the first error either way, so reading
and parsing are modelled as one call.  `seen` is the `HashSet<PathBuf>`, with
membership by component equality exactly as `PathBuf`'s `Eq`/`Hash` compare;
the Rust code inserts before reading, but an error aborts the whole run, so
checking membership first is observationally the same.  `acc` accumulates the
imported statements; `reads` records the sequence of files actually read, in
order. -/
def loadImports (fs : List Char → Except String (List Stmt))
    (rootPath : List Char) :
    List (List Char) → List (List PathComp) → List Stmt → List (List Char) →
    Except String (List Stmt × List (List Char))
  | [], _, acc, reads => Except.ok (acc, reads)
  | rel :: rest, seen, acc, reads =>
      let full := resolveRel rootPath rel
      let key := pathComponents full
      if key ∈ seen then loadImports fs rootPath rest seen acc reads
      else
        match fs full with
        | Except.error e => Except.error e
        | Except.ok part =>
            loadImports fs rootPath rest (seen ++ [key]) (acc ++ part)
              (reads ++ [full])

/-- The driver's import pass, started with empty seen-set and accumulators. -/
def driverRun (fs : List Char → Except String (List Stmt))
    (rootPath : List Char) (imports : List (List Char)) :
    Except String (List Stmt × List (List Char)) :=
  loadImports fs rootPath imports [] [] []

/-- Specification-shaped import order, following the spec's ordering
guarantee: keep each import whose deduplication key has not occurred earlier
in the list (first occurrence wins), preserving source order. -/
def keepFirstBy {α κ : Type} [DecidableEq κ] (key : α → κ) : List α → List α
  | [] => []
  | a :: rest => a :: keepFirstBy key (rest.filter (fun b => key b ≠ key a))
termination_by l => l.length
decreasing_by exact Nat.lt_succ_of_le (List.length_filter_le _ _)

/-- The driver loop's filter relative to an explicit seen-set. -/
def keepNewBy {α κ : Type} [DecidableEq κ] (key : α → κ) :
    List α → List κ → List α
  | [], _ => []
  | a :: rest, seen =>
      if key a ∈ seen then keepNewBy key rest seen
      else a :: keepNewBy key rest (seen ++ [key a])

theorem keepFirstBy_nil {α κ : Type} [DecidableEq κ] (key : α → κ) :
    keepFirstBy key [] = [] := by
  unfold keepFirstBy
  rfl

theorem keepFirstBy_cons {α κ : Type} [DecidableEq κ] (key : α → κ) (a : α)
    (rest : List α) :
    keepFirstBy key (a :: rest) =
      a :: keepFirstBy key (rest.filter (fun b => key b ≠ key a)) := by
  conv_lhs => rw [keepFirstBy.eq_def]

theorem keepFirstBy_sublist {α κ : Type} [DecidableEq κ] (key : α → κ) :
    ∀ l : List α, (keepFirstBy key l).Sublist l := by
  intro l
  induction l using keepFirstBy.induct key with
  | case1 => rw [keepFirstBy_nil]
  | case2 a rest ih =>
      rw [keepFirstBy_cons]
      exact List.Sublist.cons₂ a (ih.trans (List.filter_sublist rest))

theorem keepNewBy_nil {α κ : Type} [DecidableEq κ] (key : α → κ)
    (seen : List κ) : keepNewBy key [] seen = [] := rfl

theorem keepNewBy_cons_mem {α κ : Type} [DecidableEq κ] (key : α → κ) (a : α)
    (rest : List α) (seen : List κ) (hm : key a ∈ seen) :
    keepNewBy key (a :: rest) seen = keepNewBy key rest seen := by
  show (if key a ∈ seen then keepNewBy key rest seen
    else a :: keepNewBy key rest (seen ++ [key a])) = _
  rw [if_pos hm]

theorem keepNewBy_cons_new {α κ : Type} [DecidableEq κ] (key : α → κ) (a : α)
    (rest : List α) (seen : List κ) (hm : key a ∉ seen) :
    keepNewBy key (a :: rest) seen
      = a :: keepNewBy key rest (seen ++ [key a]) := by
  show (if key a ∈ seen then keepNewBy key rest seen
    else a :: keepNewBy key rest (seen ++ [key a])) = _
  rw [if_neg hm]

theorem keepNewBy_eq_keepFirstBy {α κ : Type} [DecidableEq κ] (key : α → κ) :
    ∀ (l : List α) (seen : List κ),
      keepNewBy key l seen =
        keepFirstBy key (l.filter (fun b => key b ∉ seen)) := by
  intro l
  induction l with
  | nil =>
      intro seen
      rw [List.filter_nil, keepFirstBy_nil, keepNewBy_nil]
  | cons a rest ih =>
      intro seen
      by_cases hm : key a ∈ seen
      · rw [keepNewBy_cons_mem key a rest seen hm]
        have hfa : (a :: rest).filter (fun b => key b ∉ seen)
            = rest.filter (fun b => key b ∉ seen) := by
          rw [List.filter_cons]
          simp [hm]
        rw [hfa]
        exact ih seen
      · rw [keepNewBy_cons_new key a rest seen hm]
        have hfa : (a :: rest).filter (fun b => key b ∉ seen)
            = a :: rest.filter (fun b => key b ∉ seen) := by
          rw [List.filter_cons]
          simp [hm]
        rw [hfa, keepFirstBy_cons, ih (seen ++ [key a]), List.filter_filter]
        congr 1
        congr 1
        apply List.filter_congr
        intro b _
        rw [← Bool.decide_and]
        refine decide_eq_decide.mpr ?_
        simp only [List.mem_append, List.mem_singleton, not_or]
        constructor
        · intro h
          exact ⟨h.2, h.1⟩
        · intro h
          exact ⟨h.2, h.1⟩

theorem loadImports_spec (fs : List Char → Except String (List Stmt))
    (g : List Char → List Stmt) (hg : ∀ q, fs q = Except.ok (g q))
    (rootPath : List Char) :
    ∀ (imports : List (List Char)) (seen : List (List PathComp))
      (acc : List Stmt) (reads : List (List Char)),
      loadImports fs rootPath imports seen acc reads =
        Except.ok
          (acc ++ (keepNewBy (fun rel => pathComponents (resolveRel rootPath rel))
              imports seen).flatMap (fun rel => g (resolveRel rootPath rel)),
           reads ++ (keepNewBy (fun rel => pathComponents (resolveRel rootPath rel))
              imports seen).map (resolveRel rootPath)) := by
  intro imports
  induction imports with
  | nil =>
      intro seen acc reads
      rw [keepNewBy_nil]
      show Except.ok (acc, reads) = _
      simp
  | cons rel rest ih =>
      intro seen acc reads
      simp only [loadImports]
      by_cases hm : pathComponents (resolveRel rootPath rel) ∈ seen
      · rw [if_pos hm, ih,
          keepNewBy_cons_mem (fun r => pathComponents (resolveRel rootPath r)) rel rest seen hm]
      · rw [if_neg hm, hg (resolveRel rootPath rel)]
        show loadImports fs rootPath rest
            (seen ++ [pathComponents (resolveRel rootPath rel)])
            (acc ++ g (resolveRel rootPath rel))
            (reads ++ [resolveRel rootPath rel]) = _
        rw [ih, keepNewBy_cons_new (fun r => pathComponents (resolveRel rootPath r)) rel rest seen hm]
        simp [List.append_assoc]

/-! UTF-8 boundary invariant of the lexer (claim C10 machinery).  A Rust
`&str` is valid UTF-8, and byte-indexed slicing panics off character
boundaries; the invariant below states that the unconsumed suffix of the
input is always a concatenation of whole character encodings, so the cursor
is always on a boundary. -/

/-- A UTF-8 continuation byte (`0x80 ≤ b < 0xC0`).  Rust's
`str::is_char_boundary` is exactly "end of string, or not a continuation
byte". -/
def isContByte (b : UInt8) : Bool :=
  128 ≤ b.toNat && b.toNat < 192

/-- A byte list that is a concatenation of whole UTF-8 character encodings:
each character is one ASCII byte, or a lead byte (`≥ 0xC0`) followed by one
to three continuation bytes. -/
inductive Utf8Seq : List UInt8 → Prop where
  | nil : Utf8Seq []
  | ascii (b : UInt8) (l : List UInt8) : b.toNat < 128 → Utf8Seq l →
      Utf8Seq (b :: l)
  | multi (b : UInt8) (cont l : List UInt8) :
      192 ≤ b.toNat → cont ≠ [] → cont.length ≤ 3 →
      (∀ x ∈ cont, isContByte x = true) → Utf8Seq l →
      Utf8Seq (b :: (cont ++ l))

theorem Utf8Seq.tail_of_ascii {b : UInt8} {l : List UInt8}
    (h : Utf8Seq (b :: l)) (hb : b.toNat < 128) : Utf8Seq l := by
  cases h with
  | ascii _ _ _ hl => exact hl
  | multi _ cont l' h192 => omega

theorem Utf8Seq.head_not_cont {l : List UInt8} (h : Utf8Seq l) :
    ∀ b, l.head? = some b → isContByte b = false := by
  cases h with
  | nil => intro b hb; exact Option.noConfusion hb
  | ascii b' l' hb' _ =>
      intro b hb
      cases hb
      simp [isContByte]
      omega
  | multi b' cont l' h192 =>
      intro b hb
      cases hb
      simp [isContByte]
      omega

theorem Utf8Seq.drop_after_ascii {l : List UInt8} (h : Utf8Seq l) :
    ∀ (k : Nat) (b : UInt8), l[k]? = some b → b.toNat < 128 →
      Utf8Seq (l.drop (k + 1)) := by
  induction h with
  | nil => intro k b hk; exact Option.noConfusion hk
  | ascii b' l' hb' hl ih =>
      intro k b hk hlt
      cases k with
      | zero =>
          simp at hk
          subst hk
          exact hl
      | succ k' =>
          show Utf8Seq (l'.drop (k' + 1))
          exact ih k' b (by simpa using hk) hlt
  | multi b' cont l' h192 hne hlen hcont hl ih =>
      intro k b hk hlt
      cases k with
      | zero =>
          simp at hk
          subst hk
          omega
      | succ k' =>
          have hk' : (cont ++ l')[k']? = some b := by simpa using hk
          by_cases hlt' : k' < cont.length
          · rw [List.getElem?_append_left hlt'] at hk'
            have hmem := List.getElem?_mem hk'
            have := hcont b hmem
            simp [isContByte] at this
            omega
          · rw [List.getElem?_append_right (by omega)] at hk'
            have hres := ih (k' - cont.length) b hk' hlt
            show Utf8Seq ((b' :: (cont ++ l')).drop (k' + 2))
            have harr : (b' :: (cont ++ l')).drop (k' + 2)
                = l'.drop (k' - cont.length + 1) := by
              show (cont ++ l').drop (k' + 1) = _
              rw [show k' + 1 = cont.length + (k' + 1 - cont.length) by omega]
              rw [List.drop_append]
              congr 1
              omega
            rw [harr]
            exact hres

theorem isWsByte_ascii {b : UInt8} (h : isWsByte b = true) : b.toNat < 128 := by
  simp only [isWsByte, Bool.or_eq_true, decide_eq_true_eq] at h
  rcases h with ((h | h) | h) | h <;> subst h <;> decide

theorem isIdentContinue_ascii {b : UInt8} (h : isIdentContinue b = true) :
    b.toNat < 128 := by
  simp only [isIdentContinue, isIdentStart, Bool.or_eq_true, Bool.and_eq_true,
    decide_eq_true_eq] at h
  rcases h with ((⟨h1, h2⟩ | ⟨h1, h2⟩) | h1) | ⟨h1, h2⟩
  · have hb : b.toNat ≤ 122 := h2
    omega
  · have hb : b.toNat ≤ 90 := h2
    omega
  · subst h1
    decide
  · have hb : b.toNat ≤ 57 := h2
    omega

theorem isDigitByte_ascii {b : UInt8} (h : isDigitByte b = true) :
    b.toNat < 128 := by
  simp only [isDigitByte, Bool.and_eq_true, decide_eq_true_eq] at h
  have hb : b.toNat ≤ 57 := h.2
  omega

theorem Lexer.bump_utf8 {st : Lexer} {b : UInt8} (hp : st.peek = some b)
    (hb : b.toNat < 128) (h : Utf8Seq (st.input.drop st.i)) :
    Utf8Seq (st.bump.input.drop st.bump.i) := by
  rw [Lexer.bump_input, Lexer.bump_i_of_peek hp]
  rw [Lexer.drop_i_eq_cons hp] at h
  exact h.tail_of_ascii hb

theorem Lexer.skipWsAux_utf8 : ∀ fuel (st : Lexer),
    Utf8Seq (st.input.drop st.i) →
    Utf8Seq ((Lexer.skipWsAux fuel st).input.drop (Lexer.skipWsAux fuel st).i) := by
  intro fuel
  induction fuel with
  | zero => intro st h; exact h
  | succ n ih =>
      intro st h
      unfold Lexer.skipWsAux
      cases hp : st.peek with
      | none => exact h
      | some b =>
          by_cases hws : isWsByte b = true
          · show Utf8Seq ((if isWsByte b = true then Lexer.skipWsAux n st.bump
                else st).input.drop (if isWsByte b = true then Lexer.skipWsAux n st.bump
                else st).i)
            rw [hws, if_pos rfl]
            exact ih st.bump (Lexer.bump_utf8 hp (isWsByte_ascii hws) h)
          · show Utf8Seq ((if isWsByte b = true then Lexer.skipWsAux n st.bump
                else st).input.drop (if isWsByte b = true then Lexer.skipWsAux n st.bump
                else st).i)
            rw [if_neg hws]
            exact h

theorem Lexer.skipWs_utf8 {st : Lexer} (h : Utf8Seq (st.input.drop st.i)) :
    Utf8Seq (st.skipWs.input.drop st.skipWs.i) :=
  Lexer.skipWsAux_utf8 _ st h

theorem Lexer.tryTake_single_peek {st : Lexer} {c : UInt8} {st' : Lexer}
    (h : st.tryTake [c] = some st') :
    st.peek = some c ∧ st'.input = st.input ∧ st'.i = st.i + 1 := by
  unfold Lexer.tryTake at h
  by_cases hs : st.startsWithBytes [c]
  · rw [if_pos hs] at h
    cases h
    refine ⟨?_, rfl, rfl⟩
    unfold Lexer.startsWithBytes at hs
    rw [Lexer.peek_eq_head]
    cases hd : st.input.drop st.i with
    | nil => rw [hd] at hs; simp [List.isPrefixOf] at hs
    | cons x rest =>
        rw [hd] at hs
        simp [List.isPrefixOf] at hs
        rw [hs]
        rfl
  · rw [if_neg hs] at h
    exact Option.noConfusion h

theorem Lexer.tryTake_single_utf8 {st : Lexer} {c : UInt8} {st' : Lexer}
    (ht : st.tryTake [c] = some st') (hc : c.toNat < 128)
    (h : Utf8Seq (st.input.drop st.i)) : Utf8Seq (st'.input.drop st'.i) := by
  obtain ⟨hp, hin, hi⟩ := Lexer.tryTake_single_peek ht
  rw [hin, hi]
  rw [Lexer.drop_i_eq_cons hp] at h
  exact h.tail_of_ascii hc

theorem Lexer.trySymbol_utf8 {st : Lexer} {t : Token} {st' : Lexer}
    (h2 : st.trySymbol = some (t, st')) (h : Utf8Seq (st.input.drop st.i)) :
    Utf8Seq (st'.input.drop st'.i) := by
  unfold Lexer.trySymbol at h2
  cases h1 : st.tryTake (asciiBytes LPAREN) with
  | some s1 =>
      rw [h1] at h2
      cases h2
      exact Lexer.tryTake_single_utf8 h1 (by decide) h
  | none =>
  rw [h1] at h2
  cases h1b : st.tryTake (asciiBytes RPAREN) with
  | some s1 =>
      rw [h1b] at h2
      cases h2
      exact Lexer.tryTake_single_utf8 h1b (by decide) h
  | none =>
  rw [h1b] at h2
  cases h1c : st.tryTake (asciiBytes LBRACE) with
  | some s1 =>
      rw [h1c] at h2
      cases h2
      exact Lexer.tryTake_single_utf8 h1c (by decide) h
  | none =>
  rw [h1c] at h2
  cases h1d : st.tryTake (asciiBytes RBRACE) with
  | some s1 =>
      rw [h1d] at h2
      cases h2
      exact Lexer.tryTake_single_utf8 h1d (by decide) h
  | none =>
  rw [h1d] at h2
  cases h1e : st.tryTake (asciiBytes COMMA) with
  | some s1 =>
      rw [h1e] at h2
      cases h2
      exact Lexer.tryTake_single_utf8 h1e (by decide) h
  | none =>
      rw [h1e] at h2
      exact Option.noConfusion h2

theorem Lexer.readStringAux_ok_pos : ∀ fuel (st : Lexer) (s0 : Nat)
    (t : Token) (st' : Lexer),
    Lexer.readStringAux fuel st s0 = (Except.ok t, st') →
    ∃ k, st.i ≤ k ∧ st.input[k]? = some 34 ∧ st'.i = k + 1 ∧
      st'.input = st.input := by
  intro fuel
  induction fuel with
  | zero =>
      intro st s0 t st' h
      exact Except.noConfusion (congrArg Prod.fst h)
  | succ n ih =>
      intro st s0 t st' h
      unfold Lexer.readStringAux at h
      cases hp : st.peek with
      | none =>
          rw [hp] at h
          exact Except.noConfusion (congrArg Prod.fst h)
      | some b =>
          rw [hp] at h
          by_cases hb : b = 34
          · subst hb
            replace h : (if (34 : UInt8) = 34 then
                (Except.ok (Token.Str ((st.input.drop s0).take (st.i - s0))),
                  st.bump)
                else Lexer.readStringAux n st.bump s0) = (Except.ok t, st') := h
            rw [if_pos rfl] at h
            have hst : st.bump = st' := congrArg Prod.snd h
            refine ⟨st.i, Nat.le_refl _, ?_, ?_, ?_⟩
            · unfold Lexer.peek at hp
              exact hp
            · rw [← hst, Lexer.bump_i_of_peek hp]
            · rw [← hst, Lexer.bump_input]
          · replace h : (if b = 34 then
                (Except.ok (Token.Str ((st.input.drop s0).take (st.i - s0))),
                  st.bump)
                else Lexer.readStringAux n st.bump s0) = (Except.ok t, st') := h
            rw [if_neg hb] at h
            obtain ⟨k, hk1, hk2, hk3, hk4⟩ := ih st.bump s0 t st' h
            have hbi := Lexer.bump_i_of_peek hp
            have hbin := Lexer.bump_input st
            rw [hbin] at hk2 hk4
            exact ⟨k, by omega, hk2, hk3, hk4⟩

theorem Lexer.readString_utf8 {st st' : Lexer} {r : Except LexError Token}
    (hp : st.peek = some 34) (hrs : st.readString = (r, st'))
    (h : Utf8Seq (st.input.drop st.i)) : Utf8Seq (st'.input.drop st'.i) := by
  cases r with
  | ok t =>
      unfold Lexer.readString at hrs
      obtain ⟨k, hk1, hk2, hk3, hk4⟩ :=
        Lexer.readStringAux_ok_pos _ st.bump st.bump.i t st' hrs
      rw [Lexer.bump_input] at hk2 hk4
      have hki : st.i ≤ k := Nat.le_trans (Lexer.bump_le st) hk1
      have hidx : (st.input.drop st.i)[k - st.i]? = some 34 := by
        rw [List.getElem?_drop]
        rw [show st.i + (k - st.i) = k by omega]
        exact hk2
      have hres := h.drop_after_ascii (k - st.i) 34 hidx (by decide)
      rw [List.drop_drop] at hres
      rw [hk4, hk3]
      rw [show st.i + (k - st.i + 1) = k + 1 from by omega] at hres
      exact hres
  | error e =>
      have spec := Lexer.readString_spec st
      rw [hrs] at spec
      obtain ⟨s1, -, -, -, s5⟩ := spec
      obtain ⟨-, -, hend⟩ := s5 e rfl
      have hin : st'.input = st.input := s1
      have hi : st.input.length ≤ st'.i := hend
      rw [hin, List.drop_eq_nil_of_le (by omega)]
      exact Utf8Seq.nil

theorem Lexer.readIdentAux_utf8 : ∀ fuel (st : Lexer),
    Utf8Seq (st.input.drop st.i) →
    Utf8Seq ((Lexer.readIdentAux fuel st).input.drop
      (Lexer.readIdentAux fuel st).i) := by
  intro fuel
  induction fuel with
  | zero => intro st h; exact h
  | succ n ih =>
      intro st h
      unfold Lexer.readIdentAux
      cases hp : st.peek with
      | none => exact h
      | some b =>
          by_cases hct : isIdentContinue b = true
          · show Utf8Seq ((if isIdentContinue b = true then Lexer.readIdentAux n st.bump
                else st).input.drop (if isIdentContinue b = true then
                Lexer.readIdentAux n st.bump else st).i)
            rw [hct, if_pos rfl]
            exact ih st.bump (Lexer.bump_utf8 hp (isIdentContinue_ascii hct) h)
          · show Utf8Seq ((if isIdentContinue b = true then Lexer.readIdentAux n st.bump
                else st).input.drop (if isIdentContinue b = true then
                Lexer.readIdentAux n st.bump else st).i)
            rw [if_neg hct]
            exact h

theorem Lexer.readNumberAux_utf8 : ∀ fuel (st : Lexer),
    Utf8Seq (st.input.drop st.i) →
    Utf8Seq ((Lexer.readNumberAux fuel st).input.drop
      (Lexer.readNumberAux fuel st).i) := by
  intro fuel
  induction fuel with
  | zero => intro st h; exact h
  | succ n ih =>
      intro st h
      unfold Lexer.readNumberAux
      cases hp : st.peek with
      | none => exact h
      | some b =>
          by_cases hct : isDigitByte b = true
          · show Utf8Seq ((if isDigitByte b = true then Lexer.readNumberAux n st.bump
                else st).input.drop (if isDigitByte b = true then
                Lexer.readNumberAux n st.bump else st).i)
            rw [hct, if_pos rfl]
            exact ih st.bump (Lexer.bump_utf8 hp (isDigitByte_ascii hct) h)
          · show Utf8Seq ((if isDigitByte b = true then Lexer.readNumberAux n st.bump
                else st).input.drop (if isDigitByte b = true then
                Lexer.readNumberAux n st.bump else st).i)
            rw [if_neg hct]
            exact h

/-- Can this byte start a token?  (One of the five symbols, a quote, an
identifier start, or a digit.) -/
def canStartByte (b : UInt8) : Bool :=
  b = 40 || b = 41 || b = 123 || b = 125 || b = 44 || b = 34 ||
    isIdentStart b || isDigitByte b

theorem Lexer.nextToken_invalid_byte {st : Lexer} {b : UInt8}
    (hp : st.skipWs.peek = some b) (hbad : canStartByte b = false) :
    st.nextToken = (Except.error ⟨unexpectedByteMsg b, st.skipWs.getPos⟩,
      st.skipWs) := by
  simp only [canStartByte, Bool.or_eq_false_iff, decide_eq_false_iff_not] at hbad
  obtain ⟨⟨⟨⟨⟨⟨⟨h40, h41⟩, h123⟩, h125⟩, h44⟩, h34⟩, hids⟩, hdig⟩ := hbad
  have hlt := Lexer.peek_some_lt hp
  have hgetd : st.skipWs.input.getD st.skipWs.i 0 = b := by
    have := Lexer.peek_eq_getD hlt
    rw [hp] at this
    exact (Option.some.inj this).symm
  simp only [Lexer.nextToken]
  rw [if_neg (by omega)]
  rw [Lexer.trySymbol_none_of_peek hp h40 h41 h123 h125 h44]
  show (if st.skipWs.peek = some 34 then _ else _) = _
  rw [if_neg (by rw [hp]; intro hh; exact h34 (Option.some.inj hh))]
  rw [hgetd]
  rw [show isIdentStart b = false from hids, if_neg (by decide)]
  rw [show isDigitByte b = false from hdig, if_neg (by decide)]

theorem Lexer.nextToken_utf8 (st : Lexer) (h : Utf8Seq (st.input.drop st.i)) :
    Utf8Seq (st.nextToken.2.input.drop st.nextToken.2.i) := by
  have hs := Lexer.skipWs_utf8 h
  simp only [Lexer.nextToken]
  by_cases he : st.skipWs.input.length ≤ st.skipWs.i
  · rw [if_pos he]
    exact hs
  · rw [if_neg he]
    cases h2 : st.skipWs.trySymbol with
    | some pr =>
        obtain ⟨t0, stS⟩ := pr
        exact Lexer.trySymbol_utf8 h2 hs
    | none =>
        by_cases h3 : st.skipWs.peek = some 34
        · rw [if_pos h3]
          cases hrs : st.skipWs.readString with
          | mk res stR =>
              cases res with
              | ok tk => exact Lexer.readString_utf8 h3 hrs hs
              | error e => exact Lexer.readString_utf8 h3 hrs hs
        · rw [if_neg h3]
          by_cases h4 : isIdentStart (st.skipWs.input.getD st.skipWs.i 0) = true
          · rw [h4, if_pos rfl]
            show Utf8Seq ((Lexer.readIdentAux _ st.skipWs).input.drop
              (Lexer.readIdentAux _ st.skipWs).i)
            exact Lexer.readIdentAux_utf8 _ st.skipWs hs
          · rw [Bool.not_eq_true] at h4
            rw [h4, if_neg (by decide)]
            by_cases h5 : isDigitByte (st.skipWs.input.getD st.skipWs.i 0) = true
            · rw [h5, if_pos rfl]
              show Utf8Seq ((Lexer.readNumberAux _ st.skipWs).input.drop
                (Lexer.readNumberAux _ st.skipWs).i)
              exact Lexer.readNumberAux_utf8 _ st.skipWs hs
            · rw [Bool.not_eq_true] at h5
              rw [h5, if_neg (by decide)]
              exact hs

/-- Modelled from the spec: one step of resolving a path to its *canonical*
form — the claim's notion of two spellings that "resolve to the same file".
`.` segments disappear and a `..` segment cancels a preceding normal
component, as the operating system does when opening the path (symlinks
aside). -/
def canonStep (stack : List PathComp) (c : PathComp) : List PathComp :=
  match c with
  | PathComp.curDir => stack
  | PathComp.parentDir =>
      match stack.getLast? with
      | some (PathComp.normal _) => stack.dropLast
      | _ => stack ++ [c]
  | _ => stack ++ [c]

/-- Modelled from the spec: the canonical component list of a path (claim C1's
"resolved canonical path"); two paths denote the same file exactly when their
canonical components agree (symlinks aside). -/
def canonicalComponents (p : List Char) : List PathComp :=
  (pathComponents p).foldl canonStep []

/-- C1, counterexample: with root `main.gfr`, the two import spellings
`a.gfr` and `./a.gfr` resolve to the same canonical file, yet the driver
reads the file twice — the `HashSet<PathBuf>` key keeps a leading `./`, so it
is not the canonical path and the claimed single load fails. -/
theorem resolve_dedup_not_canonical_counterexample :
    canonicalComponents (resolveRel (String.toList ("main.gfr"))
        (String.toList ("a.gfr")))
      = canonicalComponents (resolveRel (String.toList ("main.gfr"))
        (String.toList ("./a.gfr")))
    ∧ driverRun (fun _ => Except.ok []) (String.toList ("main.gfr"))
        [String.toList ("a.gfr"), String.toList ("./a.gfr")]
      = Except.ok ([], [String.toList ("a.gfr"), String.toList ("./a.gfr")]) := by
  constructor
  · rfl
  · rfl

/-- C1, amended: the driver deduplicates imports by the *component view of
the joined path* (interior `.` segments and repeated separators are
normalized, but nothing else — no `..` cancellation, no symlink resolution,
and a leading `./` is significant).  Two import spellings collapse to a
single load exactly when those component views agree. -/
theorem resolve_dedup_by_components (fs : List Char → Except String (List Stmt))
    (g : List Char → List Stmt) (hg : ∀ q, fs q = Except.ok (g q))
    (root r1 r2 : List Char) :
    driverRun fs root [r1, r2] =
      (if pathComponents (resolveRel root r2)
          = pathComponents (resolveRel root r1)
        then Except.ok (g (resolveRel root r1), [resolveRel root r1])
        else Except.ok (g (resolveRel root r1) ++ g (resolveRel root r2),
          [resolveRel root r1, resolveRel root r2])) := by
  unfold driverRun
  simp only [loadImports]
  rw [if_neg (List.not_mem_nil _), hg]
  show loadImports fs root [r2] [pathComponents (resolveRel root r1)]
      ([] ++ g (resolveRel root r1)) ([] ++ [resolveRel root r1]) = _
  simp only [loadImports]
  by_cases heq : pathComponents (resolveRel root r2)
      = pathComponents (resolveRel root r1)
  · rw [if_pos (by rw [heq]; exact List.mem_singleton_self _), if_pos heq]
    show Except.ok ([] ++ g (resolveRel root r1), [] ++ [resolveRel root r1]) = _
    simp
  · rw [if_neg (by rw [List.mem_singleton]; exact heq), if_neg heq, hg]
    show loadImports fs root []
        ([pathComponents (resolveRel root r1)] ++ [pathComponents (resolveRel root r2)])
        (([] ++ g (resolveRel root r1)) ++ g (resolveRel root r2))
        (([] ++ [resolveRel root r1]) ++ [resolveRel root r2]) = _
    show Except.ok ((([] ++ g (resolveRel root r1)) ++ g (resolveRel root r2)),
        (([] ++ [resolveRel root r1]) ++ [resolveRel root r2])) = _
    simp

/-- C1, amended, witness: with root `dir/main.gfr` the spellings `a.gfr` and
`./a.gfr` have equal joined-path components and collapse to one load. -/
theorem resolve_dedup_by_components_witness :
    driverRun (fun _ => Except.ok []) (String.toList ("dir/main.gfr"))
      [String.toList ("a.gfr"), String.toList ("./a.gfr")] =
      (if pathComponents (resolveRel (String.toList ("dir/main.gfr"))
            (String.toList ("./a.gfr")))
          = pathComponents (resolveRel (String.toList ("dir/main.gfr"))
            (String.toList ("a.gfr")))
        then Except.ok ([], [resolveRel (String.toList ("dir/main.gfr"))
            (String.toList ("a.gfr"))])
        else Except.ok ([] ++ [],
          [resolveRel (String.toList ("dir/main.gfr")) (String.toList ("a.gfr")),
           resolveRel (String.toList ("dir/main.gfr"))
             (String.toList ("./a.gfr"))])) :=
  resolve_dedup_by_components (fun _ => Except.ok []) (fun _ => [])
    (fun _ => rfl) (String.toList ("dir/main.gfr")) (String.toList ("a.gfr"))
    (String.toList ("./a.gfr"))

/-- C2: the driver processes import paths in source order; a duplicate
resolved path (by the deduplication key) is silently skipped with the first
occurrence winning, and the statements of each loaded import are appended in
that same order.  The loaded sequence equals the first-occurrence filter of
the import list (a sublist of it, hence in source order), and the
accumulated statements are its concatenated file contents in that order. -/
theorem driver_import_order (fs : List Char → Except String (List Stmt))
    (g : List Char → List Stmt) (hg : ∀ q, fs q = Except.ok (g q))
    (rootPath : List Char) (imports : List (List Char)) :
    driverRun fs rootPath imports = Except.ok
      ((keepFirstBy (fun rel => pathComponents (resolveRel rootPath rel))
          imports).flatMap (fun rel => g (resolveRel rootPath rel)),
       (keepFirstBy (fun rel => pathComponents (resolveRel rootPath rel))
          imports).map (resolveRel rootPath))
    ∧ (keepFirstBy (fun rel => pathComponents (resolveRel rootPath rel))
        imports).Sublist imports := by
  constructor
  · unfold driverRun
    rw [loadImports_spec fs g hg rootPath imports [] [] [],
      keepNewBy_eq_keepFirstBy]
    have hf : imports.filter
        (fun b => pathComponents (resolveRel rootPath b) ∉ ([] : List (List PathComp)))
        = imports := by
      apply List.filter_eq_self.mpr
      intro a _
      simp
    rw [hf]
    simp
  · exact keepFirstBy_sublist _ imports

/-- C2, witness: a concrete run with a duplicated resolved path. -/
theorem driver_import_order_witness :
    driverRun (fun _ => Except.ok [Stmt.Call (asciiBytes ("f"))])
        (String.toList ("d/m.gfr"))
        [String.toList ("a.gfr"), String.toList ("./a.gfr")] = Except.ok
      ((keepFirstBy (fun rel => pathComponents
            (resolveRel (String.toList ("d/m.gfr")) rel))
          [String.toList ("a.gfr"), String.toList ("./a.gfr")]).flatMap
        (fun rel => [Stmt.Call (asciiBytes ("f"))]),
       (keepFirstBy (fun rel => pathComponents
            (resolveRel (String.toList ("d/m.gfr")) rel))
          [String.toList ("a.gfr"), String.toList ("./a.gfr")]).map
        (resolveRel (String.toList ("d/m.gfr"))))
    ∧ (keepFirstBy (fun rel => pathComponents
          (resolveRel (String.toList ("d/m.gfr")) rel))
        [String.toList ("a.gfr"), String.toList ("./a.gfr")]).Sublist
      [String.toList ("a.gfr"), String.toList ("./a.gfr")] :=
  driver_import_order (fun _ => Except.ok [Stmt.Call (asciiBytes ("f"))])
    (fun _ => [Stmt.Call (asciiBytes ("f"))]) (fun _ => rfl)
    (String.toList ("d/m.gfr"))
    [String.toList ("a.gfr"), String.toList ("./a.gfr")]

/-- C3: under the included-file grammar, an `import` lookahead token fails
immediately with the "no `import` in an included file (only in main
program)" error, regardless of what was parsed around it — the loop of
`parse_sub_programs` checks for it before every statement. -/
theorem subprogram_rejects_import (p : Parser) (h : p.cur = Token.Import) :
    p.parseSubPrograms = Except.error (ParseError.Unexpected Token.Import
      ("no `import` in an included file (only in main program)") p.curPos) := by
  rw [Parser.parseSubPrograms_import h, h]

/-- C3, witness: the parser state produced by lexing `import` inside an
included file is rejected. -/
theorem subprogram_rejects_import_witness :
    Parser.new (Lexer.withFile ("inc.gfr") (asciiBytes ("import \"x.gfr\"")))
      = Except.ok ⟨⟨asciiBytes ("import \"x.gfr\""), 6, 1, 7, ("inc.gfr")⟩,
        Token.Import, ⟨0, 1, 1, ("inc.gfr")⟩⟩
    ∧ (⟨⟨asciiBytes ("import \"x.gfr\""), 6, 1, 7, ("inc.gfr")⟩,
        Token.Import, ⟨0, 1, 1, ("inc.gfr")⟩⟩ : Parser).parseSubPrograms
      = Except.error (ParseError.Unexpected Token.Import
          ("no `import` in an included file (only in main program)")
          ⟨0, 1, 1, ("inc.gfr")⟩) :=
  ⟨rfl, subprogram_rejects_import _ rfl⟩

/-- The bytes of `fn main() { log("hi") }`. -/
def mainLogSrc : List UInt8 := asciiBytes ("fn main() \x7b log(\"hi\") \x7d")

/-- The bytes of `fn main() { call foo() }`. -/
def mainCallSrc : List UInt8 := asciiBytes ("fn main() \x7b call foo() \x7d")

/-- The bytes of `fn main() { })` — a stray `)` after the closing brace. -/
def mainStraySrc : List UInt8 := asciiBytes ("fn main() \x7b \x7d)")

/-- C4: `parse_stmt` dispatches on the leading token: `log` and `call` go to
their statement parsers, and any other leading token fails with an
`Unexpected` error naming `` `log` `` as the expectation (even though `call`
is also valid).  Concretely, `fn main() { log("hi") }` parses to a program
with one `Log([Str("hi")])` statement and zero imports, and
`fn main() { call foo() }` to one `Call{name: "foo"}` statement. -/
theorem stmt_dispatch_and_examples :
    (∀ p : Parser, p.cur ≠ Token.Log → p.cur ≠ Token.Call →
      p.parseStmt = Except.error (ParseError.Unexpected p.cur ("`log`") p.curPos))
    ∧ parseMainFile ("m.gfr") mainLogSrc
        = Except.ok ([], ⟨[Stmt.Log [Expr.Str (asciiBytes ("hi"))]]⟩)
    ∧ parseMainFile ("m.gfr") mainCallSrc
        = Except.ok ([], ⟨[Stmt.Call (asciiBytes ("foo"))]⟩) := by
  refine ⟨?_, ?_, ?_⟩
  · intro p h1 h2
    unfold Parser.parseStmt
    cases hcur : p.cur <;> first
      | exact absurd hcur h1
      | exact absurd hcur h2
      | rfl
  · unfold parseMainFile
    refine exceptBind_ok.mpr
      ⟨⟨⟨mainLogSrc, 2, 1, 3, ("m.gfr")⟩, Token.Fn, ⟨0, 1, 1, ("m.gfr")⟩⟩, rfl, ?_⟩
    refine exceptBind_ok.mpr ⟨(([], Program.mk [Stmt.Log [Expr.Str (asciiBytes ("hi"))]],
      ⟨⟨mainLogSrc, 23, 1, 24, ("m.gfr")⟩, Token.Eof, ⟨23, 1, 24, ("m.gfr")⟩⟩)), ?_, ?_⟩
    · unfold Parser.parseMainProgram
      refine exceptBind_ok.mpr ⟨(([], [Stmt.Log [Expr.Str (asciiBytes ("hi"))]],
        ⟨⟨mainLogSrc, 23, 1, 24, ("m.gfr")⟩, Token.Eof, ⟨23, 1, 24, ("m.gfr")⟩⟩)), ?_, ?_⟩
      · unfold Parser.parseMainUptoBrace
        refine exceptBind_ok.mpr ⟨(([],
          ⟨⟨mainLogSrc, 2, 1, 3, ("m.gfr")⟩, Token.Fn, ⟨0, 1, 1, ("m.gfr")⟩⟩)),
          Parser.parseImports_not_import (by decide), ?_⟩
        refine exceptBind_ok.mpr
          ⟨⟨⟨mainLogSrc, 7, 1, 8, ("m.gfr")⟩, Token.Main, ⟨3, 1, 4, ("m.gfr")⟩⟩, rfl, ?_⟩
        refine exceptBind_ok.mpr
          ⟨⟨⟨mainLogSrc, 8, 1, 9, ("m.gfr")⟩, Token.LParen, ⟨7, 1, 8, ("m.gfr")⟩⟩, rfl, ?_⟩
        refine exceptBind_ok.mpr
          ⟨⟨⟨mainLogSrc, 9, 1, 10, ("m.gfr")⟩, Token.RParen, ⟨8, 1, 9, ("m.gfr")⟩⟩, rfl, ?_⟩
        refine exceptBind_ok.mpr
          ⟨⟨⟨mainLogSrc, 11, 1, 12, ("m.gfr")⟩, Token.LBrace, ⟨10, 1, 11, ("m.gfr")⟩⟩, rfl, ?_⟩
        refine exceptBind_ok.mpr
          ⟨⟨⟨mainLogSrc, 15, 1, 16, ("m.gfr")⟩, Token.Log, ⟨12, 1, 13, ("m.gfr")⟩⟩, rfl, ?_⟩
        refine exceptBind_ok.mpr ⟨(([Stmt.Log [Expr.Str (asciiBytes ("hi"))]],
          ⟨⟨mainLogSrc, 23, 1, 24, ("m.gfr")⟩, Token.RBrace, ⟨22, 1, 23, ("m.gfr")⟩⟩)), ?_, ?_⟩
        · refine Parser.stmtLoop_step (by decide) rfl ?_
          exact Parser.stmtLoop_rbrace rfl
        · rfl
      · rfl
    · rfl
  · unfold parseMainFile
    refine exceptBind_ok.mpr
      ⟨⟨⟨mainCallSrc, 2, 1, 3, ("m.gfr")⟩, Token.Fn, ⟨0, 1, 1, ("m.gfr")⟩⟩, rfl, ?_⟩
    refine exceptBind_ok.mpr ⟨(([], Program.mk [Stmt.Call (asciiBytes ("foo"))],
      ⟨⟨mainCallSrc, 24, 1, 25, ("m.gfr")⟩, Token.Eof, ⟨24, 1, 25, ("m.gfr")⟩⟩)), ?_, ?_⟩
    · unfold Parser.parseMainProgram
      refine exceptBind_ok.mpr ⟨(([], [Stmt.Call (asciiBytes ("foo"))],
        ⟨⟨mainCallSrc, 24, 1, 25, ("m.gfr")⟩, Token.Eof, ⟨24, 1, 25, ("m.gfr")⟩⟩)), ?_, ?_⟩
      · unfold Parser.parseMainUptoBrace
        refine exceptBind_ok.mpr ⟨(([],
          ⟨⟨mainCallSrc, 2, 1, 3, ("m.gfr")⟩, Token.Fn, ⟨0, 1, 1, ("m.gfr")⟩⟩)),
          Parser.parseImports_not_import (by decide), ?_⟩
        refine exceptBind_ok.mpr
          ⟨⟨⟨mainCallSrc, 7, 1, 8, ("m.gfr")⟩, Token.Main, ⟨3, 1, 4, ("m.gfr")⟩⟩, rfl, ?_⟩
        refine exceptBind_ok.mpr
          ⟨⟨⟨mainCallSrc, 8, 1, 9, ("m.gfr")⟩, Token.LParen, ⟨7, 1, 8, ("m.gfr")⟩⟩, rfl, ?_⟩
        refine exceptBind_ok.mpr
          ⟨⟨⟨mainCallSrc, 9, 1, 10, ("m.gfr")⟩, Token.RParen, ⟨8, 1, 9, ("m.gfr")⟩⟩, rfl, ?_⟩
        refine exceptBind_ok.mpr
          ⟨⟨⟨mainCallSrc, 11, 1, 12, ("m.gfr")⟩, Token.LBrace, ⟨10, 1, 11, ("m.gfr")⟩⟩, rfl, ?_⟩
        refine exceptBind_ok.mpr
          ⟨⟨⟨mainCallSrc, 16, 1, 17, ("m.gfr")⟩, Token.Call, ⟨12, 1, 13, ("m.gfr")⟩⟩, rfl, ?_⟩
        refine exceptBind_ok.mpr ⟨(([Stmt.Call (asciiBytes ("foo"))],
          ⟨⟨mainCallSrc, 24, 1, 25, ("m.gfr")⟩, Token.RBrace, ⟨23, 1, 24, ("m.gfr")⟩⟩)), ?_, ?_⟩
        · refine Parser.stmtLoop_step (by decide) rfl ?_
          exact Parser.stmtLoop_rbrace rfl
        · rfl
      · rfl
    · rfl

/-- C4, witness: a `Number` leading token is rejected naming `` `log` ``. -/
theorem stmt_dispatch_witness :
    Parser.parseStmt ⟨⟨[], 0, 1, 1, ("f")⟩, Token.Number (asciiBytes ("1")),
        ⟨0, 1, 1, ("f")⟩⟩
      = Except.error (ParseError.Unexpected (Token.Number (asciiBytes ("1")))
          ("`log`") ⟨0, 1, 1, ("f")⟩) :=
  stmt_dispatch_and_examples.1 _ (by decide) (by decide)

/-- C5: if the lexer stands on an opening quote and no closing quote occurs
in the rest of the input, `next_token` fails with the incomplete-string
error positioned at the end of the input. -/
theorem unterminated_string_error (st : Lexer) (hp : st.peek = some 34)
    (hq : ∀ b ∈ st.input.drop (st.i + 1), b ≠ 34) :
    ∃ e st', st.nextToken = (Except.error e, st') ∧
      e.message = incompleteStringMsg ∧ e.pos.byte = st.input.length := by
  have hbi := Lexer.bump_i_of_peek hp
  have hbin := Lexer.bump_input st
  have hlt := Lexer.peek_some_lt hp
  obtain ⟨e, he⟩ := Lexer.readStringAux_no_quote
    (st.bump.input.length - st.bump.i) st.bump st.bump.i
    (by rw [hbin, hbi]; exact hq)
  have hre : st.readString.1 = Except.error e := he
  obtain ⟨-, -, s3, -, s5⟩ := Lexer.readString_spec st
  obtain ⟨hm, hbyte, hend⟩ := s5 e hre
  refine ⟨e, st.readString.2, ?_, hm, ?_⟩
  · rw [Lexer.nextToken_quote hp]
    cases hr : st.readString with
    | mk res st2 =>
        rw [hr] at hre
        cases res with
        | ok t => exact Except.noConfusion hre
        | error e2 =>
            have he2 : e2 = e := Except.error.inj hre
            rw [he2]
  · rw [hbyte]
    omega

/-- C5, witness: the input `"abc` (opening quote, never closed). -/
theorem unterminated_string_error_witness :
    ∃ e st', (⟨asciiBytes ("\"abc"), 0, 1, 1, ("f")⟩ : Lexer).nextToken
        = (Except.error e, st') ∧
      e.message = incompleteStringMsg ∧
      e.pos.byte = (asciiBytes ("\"abc")).length :=
  unterminated_string_error ⟨asciiBytes ("\"abc"), 0, 1, 1, ("f")⟩ rfl (by decide)

/-- C6: for a byte string `s` free of the quote byte, lexing `"` ++ s ++ `"`
yields one `Str` token whose payload is exactly `s` (the raw bytes between
the quotes), and the next call yields `Eof`. -/
theorem string_roundtrip (s : List UInt8) (file : String) (hq : ∀ b ∈ s, b ≠ 34) :
    ∃ p1 st1 p2, (Lexer.withFile file (34 :: (s ++ [34]))).nextToken
        = (Except.ok (Token.Str s, p1), st1)
      ∧ st1.nextToken = (Except.ok (Token.Eof, p2), st1) := by
  have hp : (Lexer.withFile file (34 :: (s ++ [34]))).peek = some 34 := by
    rw [Lexer.peek_eq_head]
    rfl
  have hbi : (Lexer.withFile file (34 :: (s ++ [34]))).bump.i = 1 := by
    rw [Lexer.bump_i_of_peek hp]
    rfl
  have hbin : (Lexer.withFile file (34 :: (s ++ [34]))).bump.input
      = 34 :: (s ++ [34]) := Lexer.bump_input _
  have hdrop : (Lexer.withFile file (34 :: (s ++ [34]))).bump.input.drop
      (Lexer.withFile file (34 :: (s ++ [34]))).bump.i = s ++ 34 :: [] := by
    rw [hbin, hbi]
    rfl
  obtain ⟨stE, hres, hEi, hEin⟩ := Lexer.readStringAux_finds s
      ((Lexer.withFile file (34 :: (s ++ [34]))).bump.input.length -
        (Lexer.withFile file (34 :: (s ++ [34]))).bump.i)
      (Lexer.withFile file (34 :: (s ++ [34]))).bump
      (Lexer.withFile file (34 :: (s ++ [34]))).bump.i [] hdrop hq
      (by rw [hbin, hbi]
          simp only [List.length_cons, List.length_append, List.length_nil]
          omega)
  have hslice : ((Lexer.withFile file (34 :: (s ++ [34]))).bump.input.drop
      (Lexer.withFile file (34 :: (s ++ [34]))).bump.i).take
      ((Lexer.withFile file (34 :: (s ++ [34]))).bump.i + s.length -
        (Lexer.withFile file (34 :: (s ++ [34]))).bump.i) = s := by
    rw [hdrop, hbi, Nat.add_sub_cancel_left]
    exact List.take_left s (34 :: [])
  have hrs : (Lexer.withFile file (34 :: (s ++ [34]))).readString
      = (Except.ok (Token.Str s), stE) := by
    unfold Lexer.readString
    rw [hres, hslice]
  have hend : stE.input.length ≤ stE.i := by
    rw [hEin, hEi, hbin, hbi]
    simp only [List.length_cons, List.length_append, List.length_nil]
    omega
  refine ⟨⟨0, 1, 1, file⟩, stE, ⟨stE.i, stE.line, stE.col, stE.file⟩, ?_,
    Lexer.nextToken_at_end hend⟩
  rw [Lexer.nextToken_quote hp, hrs]
  rfl

/-- C6, witness: the source `"hi"`. -/
theorem string_roundtrip_witness :
    ∃ p1 st1 p2, (Lexer.withFile ("f") (34 :: (asciiBytes ("hi") ++ [34]))).nextToken
        = (Except.ok (Token.Str (asciiBytes ("hi")), p1), st1)
      ∧ st1.nextToken = (Except.ok (Token.Eof, p2), st1) :=
  string_roundtrip (asciiBytes ("hi")) ("f") (by decide)

theorem Token.eq_eof_of_tag {t : Token} (h : t.tag = Token.Eof.tag) :
    t = Token.Eof := by
  cases t <;> first
    | rfl
    | exact absurd h (by simp [Token.tag])

/-- C7: whenever parsing reaches the closing brace of the `main` block with a
non-`Eof` token left over (any trailing token, e.g. a stray `)`),
`parse_main_program` fails with an `Unexpected` error whose expected
construct is the "end of file" string — it never succeeds silently. -/
theorem trailing_token_error (p p8 : Parser) (imports : List (List UInt8))
    (stmts : List Stmt)
    (h : p.parseMainUptoBrace = Except.ok (imports, stmts, p8))
    (hne : p8.cur ≠ Token.Eof) :
    p.parseMainProgram = Except.error
      (ParseError.Unexpected p8.cur EOF p8.curPos) := by
  unfold Parser.parseMainProgram
  rw [h]
  show (p8.expect Token.Eof EOF >>= fun p9 =>
      Except.ok (imports, (⟨stmts⟩ : Program), p9)) = _
  unfold Parser.expect
  rw [if_neg (fun hh => hne (Token.eq_eof_of_tag hh))]
  rfl

/-- C7, witness: `fn main() { })` — the stray `)` after the closing brace is
reported as an unexpected token where "end of file" was expected. -/
theorem trailing_token_error_witness :
    (⟨⟨mainStraySrc, 2, 1, 3, ("m.gfr")⟩, Token.Fn, ⟨0, 1, 1, ("m.gfr")⟩⟩ :
        Parser).parseMainUptoBrace
      = Except.ok ([], [], ⟨⟨mainStraySrc, 14, 1, 15, ("m.gfr")⟩, Token.RParen,
          ⟨13, 1, 14, ("m.gfr")⟩⟩)
    ∧ (⟨⟨mainStraySrc, 2, 1, 3, ("m.gfr")⟩, Token.Fn, ⟨0, 1, 1, ("m.gfr")⟩⟩ :
        Parser).parseMainProgram
      = Except.error (ParseError.Unexpected Token.RParen EOF
          ⟨13, 1, 14, ("m.gfr")⟩) := by
  have hEval : (⟨⟨mainStraySrc, 2, 1, 3, ("m.gfr")⟩, Token.Fn,
        ⟨0, 1, 1, ("m.gfr")⟩⟩ : Parser).parseMainUptoBrace
      = Except.ok ([], [], ⟨⟨mainStraySrc, 14, 1, 15, ("m.gfr")⟩, Token.RParen,
          ⟨13, 1, 14, ("m.gfr")⟩⟩) := by
    unfold Parser.parseMainUptoBrace
    refine exceptBind_ok.mpr ⟨(([],
      ⟨⟨mainStraySrc, 2, 1, 3, ("m.gfr")⟩, Token.Fn, ⟨0, 1, 1, ("m.gfr")⟩⟩)),
      Parser.parseImports_not_import (by decide), ?_⟩
    refine exceptBind_ok.mpr
      ⟨⟨⟨mainStraySrc, 7, 1, 8, ("m.gfr")⟩, Token.Main, ⟨3, 1, 4, ("m.gfr")⟩⟩, rfl, ?_⟩
    refine exceptBind_ok.mpr
      ⟨⟨⟨mainStraySrc, 8, 1, 9, ("m.gfr")⟩, Token.LParen, ⟨7, 1, 8, ("m.gfr")⟩⟩, rfl, ?_⟩
    refine exceptBind_ok.mpr
      ⟨⟨⟨mainStraySrc, 9, 1, 10, ("m.gfr")⟩, Token.RParen, ⟨8, 1, 9, ("m.gfr")⟩⟩, rfl, ?_⟩
    refine exceptBind_ok.mpr
      ⟨⟨⟨mainStraySrc, 11, 1, 12, ("m.gfr")⟩, Token.LBrace, ⟨10, 1, 11, ("m.gfr")⟩⟩, rfl, ?_⟩
    refine exceptBind_ok.mpr
      ⟨⟨⟨mainStraySrc, 13, 1, 14, ("m.gfr")⟩, Token.RBrace, ⟨12, 1, 13, ("m.gfr")⟩⟩, rfl, ?_⟩
    refine exceptBind_ok.mpr ⟨(([],
      ⟨⟨mainStraySrc, 13, 1, 14, ("m.gfr")⟩, Token.RBrace, ⟨12, 1, 13, ("m.gfr")⟩⟩)),
      Parser.stmtLoop_rbrace rfl, ?_⟩
    rfl
  exact ⟨hEval, trailing_token_error _ _ _ _ hEval (by decide)⟩

/-- C8: a whitespace-only input lexes to `Eof` at a position reflecting the
skipped whitespace (its byte offset is the input length), and `Eof` is
repeatable: any call returning `Eof` leaves the lexer in a state whose next
call returns the very same `Eof` result, never an error. -/
theorem eof_ws_and_repeatable :
    (∀ (input : List UInt8) (file : String), (∀ b ∈ input, isWsByte b = true) →
      ∃ st', (Lexer.withFile file input).nextToken
          = (Except.ok (Token.Eof,
              ⟨input.length, st'.line, st'.col, st'.file⟩), st')
        ∧ st'.i = input.length)
    ∧ ∀ (st st' : Lexer) (pos : Pos),
        st.nextToken = (Except.ok (Token.Eof, pos), st') →
        st'.nextToken = (Except.ok (Token.Eof, pos), st') := by
  constructor
  · intro input file hws
    have hall : (Lexer.withFile file input).skipWs.i = input.length := by
      apply Lexer.skipWs_all
      · exact Nat.zero_le _
      · intro b hb
        exact hws b hb
    have hin : (Lexer.withFile file input).skipWs.input = input :=
      Lexer.skipWs_input _
    have hend : (Lexer.withFile file input).skipWs.input.length ≤
        (Lexer.withFile file input).skipWs.i := by
      rw [hin, hall]
    refine ⟨(Lexer.withFile file input).skipWs, ?_, hall⟩
    simp only [Lexer.nextToken]
    rw [if_pos hend, hall]
  · intro st st' pos h
    obtain ⟨hst', hle, hp⟩ := Lexer.nextToken_eof_inv h
    have hin : st'.input = st.input := by
      rw [hst']
      exact Lexer.skipWs_input st
    have hend2 : st'.input.length ≤ st'.i := by
      rw [hin]
      exact hle
    rw [hp]
    exact Lexer.nextToken_at_end hend2

/-- C8, witness: the two-byte whitespace input (space, newline), and the
repeatability of `Eof` on the empty input. -/
theorem eof_ws_and_repeatable_witness :
    (∃ st', (Lexer.withFile ("f") [32, 10]).nextToken
        = (Except.ok (Token.Eof,
            ⟨([32, 10] : List UInt8).length, st'.line, st'.col, st'.file⟩), st')
      ∧ st'.i = ([32, 10] : List UInt8).length)
    ∧ (⟨[], 0, 1, 1, ("f")⟩ : Lexer).nextToken
        = (Except.ok (Token.Eof, ⟨0, 1, 1, ("f")⟩), ⟨[], 0, 1, 1, ("f")⟩) :=
  ⟨eof_ws_and_repeatable.1 [32, 10] ("f") (by decide),
   eof_ws_and_repeatable.2 ⟨[], 0, 1, 1, ("f")⟩ ⟨[], 0, 1, 1, ("f")⟩
     ⟨0, 1, 1, ("f")⟩ rfl⟩

/-- C9: no operation of the lexer/parser pipeline ever returns the
`ParseError::IntOverflow` variant — every entry point of the parser, on every
state and every input, produces a result free of it. -/
theorem int_overflow_unreachable (p : Parser) (file : String)
    (input : List UInt8) :
    noIntOverflow p.parseMainProgram ∧ noIntOverflow p.parseSubPrograms ∧
    noIntOverflow p.parseImports ∧ noIntOverflow p.parseStmt ∧
    noIntOverflow p.parseFunction ∧ noIntOverflow (parseMainFile file input) ∧
    noIntOverflow (parseSubFile file input) :=
  ⟨Parser.parseMainProgram_no_overflow p, Parser.parseSubPrograms_no_overflow p,
   Parser.parseImports_no_overflow p, Parser.parseStmt_no_overflow p,
   Parser.parseFunction_no_overflow p, parseMainFile_no_overflow file input,
   parseSubFile_no_overflow file input⟩

/-- C10: `next_token` is total (it is a function into token-or-error results)
and boundary-safe: on an input whose unconsumed suffix is well-formed UTF-8,
the unconsumed suffix after any call is again well-formed UTF-8 and never
starts with a continuation byte, so every slice taken at the cursor is at a
character boundary; and a byte that cannot start any token yields the fatal
lex error reporting the offending byte value and its position. -/
theorem lexer_total_and_boundary_safe (st : Lexer) :
    (Utf8Seq (st.input.drop st.i) →
      Utf8Seq (st.nextToken.2.input.drop st.nextToken.2.i) ∧
      ∀ b, (st.nextToken.2.input.drop st.nextToken.2.i).head? = some b →
        isContByte b = false)
    ∧ ∀ b, st.skipWs.peek = some b → canStartByte b = false →
        st.nextToken = (Except.error ⟨unexpectedByteMsg b, st.skipWs.getPos⟩,
          st.skipWs) := by
  constructor
  · intro h
    have h2 := Lexer.nextToken_utf8 st h
    exact ⟨h2, fun b hb => h2.head_not_cont b hb⟩
  · intro b hb hbad
    exact Lexer.nextToken_invalid_byte hb hbad

/-- C10, witness: the one-byte input `$` (0x24), which cannot start a token,
with a well-formed UTF-8 suffix. -/
theorem lexer_total_and_boundary_safe_witness :
    (Utf8Seq (((⟨[36], 0, 1, 1, ("f")⟩ : Lexer).nextToken.2.input.drop
          (⟨[36], 0, 1, 1, ("f")⟩ : Lexer).nextToken.2.i))
      ∧ ∀ b, (((⟨[36], 0, 1, 1, ("f")⟩ : Lexer).nextToken.2.input.drop
          (⟨[36], 0, 1, 1, ("f")⟩ : Lexer).nextToken.2.i)).head? = some b →
        isContByte b = false)
    ∧ (⟨[36], 0, 1, 1, ("f")⟩ : Lexer).nextToken
      = (Except.error ⟨unexpectedByteMsg 36, ⟨0, 1, 1, ("f")⟩⟩,
          ⟨[36], 0, 1, 1, ("f")⟩) :=
  ⟨(lexer_total_and_boundary_safe ⟨[36], 0, 1, 1, ("f")⟩).1
      (Utf8Seq.ascii 36 [] (by decide) Utf8Seq.nil),
   (lexer_total_and_boundary_safe ⟨[36], 0, 1, 1, ("f")⟩).2 36 rfl (by decide)⟩
